import Mathlib

/-!
Verification of the openclaw-china channel plug-ins.

This file gives a shallow embedding, in Lean 4, of the pure decision logic of
the repository's WeCom / WeCom-App / DingTalk channel code, together with
theorems settling the specification claims about it.

Modelling conventions, used throughout:

* JavaScript strings are modelled as Lean `String`s, but every string
  operation used by the source (trim, toLowerCase, split, startsWith, ...)
  is re-implemented here over `List Char`, because the embedding must be
  executable inside the kernel.  The re-implementations follow the ASCII
  behaviour of the JS built-ins, which is the only behaviour the claims
  exercise.
* Byte buffers (`Buffer`, `Uint8Array`) are modelled as `List Nat` with the
  convention that entries are `< 256`.
* External platform I/O (`fetch` responses, HTTP status, ffmpeg presence)
  is modelled by passing the observed response as an explicit argument, and
  thrown exceptions by `Option`/sum results.
* `Date.now()` is modelled by an explicit `now : Nat` argument.
* `node:crypto`'s AES-256-CBC block primitive is not part of the repository;
  it is modelled as an abstract block cipher (an encrypt/decrypt pair on
  16-byte blocks).  Everything the repository itself implements around it
  (base64, PKCS#7 with block size 32, CBC chaining, the payload framing) is
  embedded concretely.  SHA-1, whose exact digest values the signature
  claims depend on, is embedded concretely (FIPS 180 algorithm).
-/

namespace JsStr

/-- ASCII whitespace recognised by the JS `\s` class and `String.trim`
(space, tab, newline, carriage return, vertical tab, form feed). -/
def isWs (c : Char) : Bool :=
  c = ' ' || c = '\t' || c = '\n' || c = '\r' || c = Char.ofNat 11 || c = Char.ofNat 12

/-- Drop leading whitespace. -/
def dropWs : List Char → List Char
  | [] => []
  | c :: cs => if isWs c then dropWs cs else c :: cs

/-- `String.prototype.trim` on a char list. -/
def trimChars (l : List Char) : List Char :=
  (dropWs (dropWs l.reverse).reverse)

/-- `String.prototype.trim`. -/
def trimJS (s : String) : String := String.mk (trimChars s.data)

/-- ASCII `toLowerCase` of one char. -/
def lowerChar (c : Char) : Char :=
  if 65 ≤ c.toNat && c.toNat ≤ 90 then Char.ofNat (c.toNat + 32) else c

/-- ASCII `String.prototype.toLowerCase` on a char list. -/
def lowerChars (l : List Char) : List Char := l.map lowerChar

/-- ASCII `String.prototype.toLowerCase`. -/
def toLowerJS (s : String) : String := String.mk (lowerChars s.data)

/-- Split a char list on a separator character (`String.prototype.split`
with a one-char separator).  Always returns at least one piece. -/
def splitChar (sep : Char) : List Char → List (List Char)
  | [] => [[]]
  | c :: cs =>
    let rest := splitChar sep cs
    if c = sep then [] :: rest
    else
      match rest with
      | [] => [[c]]
      | piece :: more => (c :: piece) :: more

/-- Boolean prefix test on char lists. -/
def isPrefixB : List Char → List Char → Bool
  | [], _ => true
  | _ :: _, [] => false
  | p :: ps, c :: cs => p = c && isPrefixB ps cs

/-- `String.prototype.startsWith`. -/
def startsWithJS (s pre : String) : Bool := isPrefixB pre.data s.data

/-- `String.prototype.endsWith`. -/
def endsWithJS (s suf : String) : Bool := isPrefixB suf.data.reverse s.data.reverse

/-- Boolean substring test (`String.prototype.includes`). -/
def containsB (needle : List Char) : List Char → Bool
  | [] => isPrefixB needle []
  | c :: cs => isPrefixB needle (c :: cs) || containsB needle cs

/-- `String.prototype.includes`. -/
def includesJS (s sub : String) : Bool := containsB sub.data s.data

/-- The last element of a non-empty split (`Array.prototype.pop` after
`split`), with `""` for the impossible empty case. -/
def lastPiece (l : List (List Char)) : List Char :=
  match l with
  | [] => []
  | [p] => p
  | _ :: rest => lastPiece rest

/-- The first element of a split. -/
def headPiece (l : List (List Char)) : List Char :=
  match l with
  | [] => []
  | p :: _ => p

/-- A JS digit. -/
def isDigitB (c : Char) : Bool := 48 ≤ c.toNat && c.toNat ≤ 57

/-- A JS word character (`\w` class: letters, digits, underscore). -/
def isWordB (c : Char) : Bool :=
  isDigitB c || (65 ≤ c.toNat && c.toNat ≤ 90) || (97 ≤ c.toNat && c.toNat ≤ 122) || c = '_'

/-- `parseInt(s, 10)` restricted to its decimal behaviour: skip leading
whitespace, read an optional sign and then leading decimal digits; `none`
models `NaN`. -/
def parseIntJS (s : String) : Option Int :=
  let l := dropWs s.data
  let (neg, l) :=
    match l with
    | '-' :: rest => (true, rest)
    | '+' :: rest => (false, rest)
    | _ => (false, l)
  let digits := l.takeWhile isDigitB
  if digits = [] then none
  else
    let v : Nat := digits.foldl (fun a c => a * 10 + (c.toNat - 48)) 0
    some (if neg then -(v : Int) else (v : Int))

end JsStr

/-! ## C4 — `downloadWecomMediaToFile` size cap (src/unnamed/part_006, lines 413-534)

Only the size-enforcement logic is relevant: the Content-Length pre-check
(lines 469-476) and the streaming byte counter (lines 478-497).  The HTTP
response is modelled by the declared `Content-Length` (already parsed;
`none` models an absent or non-numeric header) and the list of body chunks
delivered by the reader. -/

namespace WecomAppMedia

/-- Result of the size-relevant part of `downloadWecomMediaToFile`:
either the download was aborted with a `FileSizeLimitError(actual, limit,
"media")`, or the body was fully read and written. -/
inductive DownloadOutcome where
  | sizeLimit (actualSize limitSize : Nat)
  | saved (bytes : List Nat)
deriving DecidableEq

/-- The streaming loop of `downloadWecomMediaToFile` (lines 487-497):
accumulate chunks, add each chunk's length to `totalSize`, and throw
`FileSizeLimitError(totalSize, maxBytes)` as soon as
`maxBytes > 0 && totalSize > maxBytes`. -/
def streamLoop (maxBytes : Nat) : List (List Nat) → Nat → List Nat → DownloadOutcome
  | [], _, acc => .saved acc
  | chunk :: rest, totalSize, acc =>
    if 0 < maxBytes ∧ maxBytes < totalSize + chunk.length then
      .sizeLimit (totalSize + chunk.length) maxBytes
    else streamLoop maxBytes rest (totalSize + chunk.length) (acc ++ chunk)

/-- The size-enforcement core of `downloadWecomMediaToFile` (lines 469-497):
if a Content-Length is present and `maxBytes > 0 && declaredSize > maxBytes`,
throw `FileSizeLimitError(declaredSize, maxBytes)` before reading the body;
otherwise stream the body through `streamLoop`. -/
def downloadWecomMediaToFile (maxBytes : Nat) (contentLength : Option Nat)
    (chunks : List (List Nat)) : DownloadOutcome :=
  match contentLength with
  | some declaredSize =>
    if 0 < maxBytes ∧ maxBytes < declaredSize then .sizeLimit declaredSize maxBytes
    else streamLoop maxBytes chunks 0 []
  | none => streamLoop maxBytes chunks 0 []

end WecomAppMedia

/-! ## C8 — `resolveWecomAppAccount` (src/extensions/wecom-app/src/config.ts, lines 188-242) -/

namespace WecomAppCfg

/-- `WecomAppAccountConfig` restricted to the fields `resolveWecomAppAccount`
reads (src/extensions/wecom-app/src/types.ts). -/
structure WecomAppAccountConfig where
  name : Option String
  enabled : Option Bool
  token : Option String
  encodingAESKey : Option String
  receiveId : Option String
  corpId : Option String
  corpSecret : Option String
  agentId : Option Int
deriving DecidableEq

/-- The empty account config (`{}`). -/
def emptyAccount : WecomAppAccountConfig :=
  ⟨none, none, none, none, none, none, none, none⟩

/-- `channels.wecom-app`: the top-level fields plus the `accounts` record
(modelled as an association list, JS object key order) and
`defaultAccount`. -/
structure WecomAppChannelConfig where
  base : WecomAppAccountConfig
  channelEnabled : Option Bool
  accounts : Option (List (String × WecomAppAccountConfig))
  defaultAccount : Option String
deriving DecidableEq

/-- A `PluginConfig`, holding the optional `channels.wecom-app` entry. -/
structure PluginConfig where
  wecomApp : Option WecomAppChannelConfig
deriving DecidableEq

/-- The process-environment overrides consulted for the default account. -/
structure EnvVars where
  token : Option String
  encodingAESKey : Option String
  corpId : Option String
  corpSecret : Option String
  agentId : Option String
deriving DecidableEq

/-- An environment with none of the `WECOM_APP_*` variables set. -/
def emptyEnv : EnvVars := ⟨none, none, none, none, none⟩

/-- `ResolvedWecomAppAccount` restricted to the fields produced by
`resolveWecomAppAccount`. -/
structure ResolvedWecomAppAccount where
  accountId : String
  name : Option String
  enabled : Bool
  configured : Bool
  token : Option String
  encodingAESKey : Option String
  receiveId : String
  corpId : Option String
  corpSecret : Option String
  agentId : Option Int
  canSendActive : Bool
  config : WecomAppAccountConfig
deriving DecidableEq

/-- `DEFAULT_ACCOUNT_ID` (config.ts line 16). -/
def DEFAULT_ACCOUNT_ID : String := "default"

/-- `normalizeAccountId` (config.ts lines 157-160). -/
def normalizeAccountId (raw : Option String) : String :=
  let trimmed := JsStr.trimJS (raw.getD "")
  if trimmed = "" then DEFAULT_ACCOUNT_ID else trimmed

/-- `resolveAccountConfig` (config.ts lines 182-186): look the account id up
in `channels.wecom-app.accounts`. -/
def resolveAccountConfig (cfg : PluginConfig) (accountId : String) :
    Option WecomAppAccountConfig :=
  match cfg.wecomApp with
  | none => none
  | some ch =>
    match ch.accounts with
    | none => none
    | some accounts => accounts.lookup accountId

/-- Merging of one optional field by JS object spread
(`{...baseConfig, ...account}`): the account's field wins when present. -/
def mergeField {α : Type} (acct base : Option α) : Option α :=
  match acct with
  | some v => some v
  | none => base

/-- `mergeWecomAppAccountConfig` (config.ts lines 188-193): spread the
top-level config (minus `accounts`/`defaultAccount`) under the per-account
overrides. -/
def mergeWecomAppAccountConfig (cfg : PluginConfig) (accountId : String) :
    WecomAppAccountConfig :=
  let base :=
    match cfg.wecomApp with
    | none => emptyAccount
    | some ch => ch.base
  let acct := (resolveAccountConfig cfg accountId).getD emptyAccount
  { name := mergeField acct.name base.name
    enabled := mergeField acct.enabled base.enabled
    token := mergeField acct.token base.token
    encodingAESKey := mergeField acct.encodingAESKey base.encodingAESKey
    receiveId := mergeField acct.receiveId base.receiveId
    corpId := mergeField acct.corpId base.corpId
    corpSecret := mergeField acct.corpSecret base.corpSecret
    agentId := mergeField acct.agentId base.agentId }

/-- `x?.trim() || fallback` chaining: trim an optional string, with the empty
result counting as falsy. -/
def trimOrNone (s : Option String) : Option String :=
  match s with
  | none => none
  | some v =>
    let t := JsStr.trimJS v
    if t = "" then none else some t

/-- Truthiness of an optional string (`Boolean(x)` with `undefined` and `""`
falsy). -/
def optStrTruthy (s : Option String) : Bool :=
  match s with
  | none => false
  | some v => v ≠ ""

/-- Truthiness of an optional number (`Boolean(x)` with `undefined` and `0`
falsy). -/
def optIntTruthy (n : Option Int) : Bool :=
  match n with
  | none => false
  | some v => v ≠ 0

/-- `resolveWecomAppAccount` (config.ts lines 195-242). -/
def resolveWecomAppAccount (cfg : PluginConfig) (accountIdArg : Option String)
    (env : EnvVars) : ResolvedWecomAppAccount :=
  let accountId := normalizeAccountId accountIdArg
  let baseEnabled :=
    match cfg.wecomApp with
    | none => true
    | some ch => ch.channelEnabled ≠ some false
  let merged := mergeWecomAppAccountConfig cfg accountId
  let enabled := baseEnabled && merged.enabled ≠ some false
  let isDefaultAccount := accountId = DEFAULT_ACCOUNT_ID
  let token :=
    match trimOrNone merged.token with
    | some t => some t
    | none => if isDefaultAccount then trimOrNone env.token else none
  let encodingAESKey :=
    match trimOrNone merged.encodingAESKey with
    | some t => some t
    | none => if isDefaultAccount then trimOrNone env.encodingAESKey else none
  let receiveId :=
    match merged.receiveId with
    | some s => JsStr.trimJS s
    | none => ""
  let corpId :=
    match trimOrNone merged.corpId with
    | some t => some t
    | none => if isDefaultAccount then trimOrNone env.corpId else none
  let corpSecret :=
    match trimOrNone merged.corpSecret with
    | some t => some t
    | none => if isDefaultAccount then trimOrNone env.corpSecret else none
  let envAgentId :=
    if isDefaultAccount then
      match env.agentId with
      | none => none
      | some s => if s = "" then none else JsStr.parseIntJS s
    else none
  let agentId :=
    match merged.agentId with
    | some a => some a
    | none => envAgentId
  let configured := optStrTruthy token && optStrTruthy encodingAESKey
  let canSendActive := optStrTruthy corpId && optStrTruthy corpSecret && optIntTruthy agentId
  { accountId := accountId
    name := trimOrNone merged.name
    enabled := enabled
    configured := configured
    token := token
    encodingAESKey := encodingAESKey
    receiveId := receiveId
    corpId := corpId
    corpSecret := corpSecret
    agentId := agentId
    canSendActive := canSendActive
    config := merged }

end WecomAppCfg

/-! ## C3 — the access-token cache (src/unnamed/part_006, lines 170-303) -/

namespace WecomAppApi

/-- `AccessTokenCacheEntry`. -/
structure AccessTokenCacheEntry where
  token : String
  expiresAt : Nat
deriving DecidableEq

/-- The module-level `accessTokenCache` `Map`, as an association list in
insertion order. -/
abbrev TokenCache := List (String × AccessTokenCacheEntry)

/-- `ACCESS_TOKEN_TTL_MS = 7200 * 1000 - 5 * 60 * 1000` (line 174). -/
def ACCESS_TOKEN_TTL_MS : Nat := 7200 * 1000 - 5 * 60 * 1000

/-- The cache key `corpId:agentId` with `agentId ?? "default"` (line 278). -/
def cacheKey (corpId : String) (agentId : Option Int) : String :=
  corpId ++ ":" ++ (match agentId with
    | some a => toString a
    | none => "default")

/-- `Map.prototype.set`: replace the entry in place if the key already
exists, otherwise append. -/
def cacheSet (key : String) (e : AccessTokenCacheEntry) : TokenCache → TokenCache
  | [] => [(key, e)]
  | (k, v) :: rest =>
    if k = key then (k, e) :: rest else (k, v) :: cacheSet key e rest

/-- The account fields `getAccessToken` reads. -/
structure ApiAccount where
  corpId : Option String
  corpSecret : Option String
  agentId : Option Int
  canSendActive : Bool
deriving DecidableEq

/-- `getAccessToken` (lines 273-303).  `now` models `Date.now()` (both reads
of the clock during one call), and `fetched` models the token returned by a
successful `gettoken` call (`none` models `errcode ≠ 0`, a thrown network
error, or response parsing failure; the empty-string case of
`data.access_token` is checked separately, as in the source).  The result is
`none` when the source throws, otherwise the token together with the updated
cache. -/
def getAccessToken (account : ApiAccount) (cache : TokenCache) (now : Nat)
    (fetched : Option String) : Option (String × TokenCache) :=
  if !(WecomAppCfg.optStrTruthy account.corpId && WecomAppCfg.optStrTruthy account.corpSecret) then
    none
  else
    let key := cacheKey (account.corpId.getD "") account.agentId
    let hit :=
      match cache.lookup key with
      | some cached => if now < cached.expiresAt then some cached.token else none
      | none => none
    match hit with
    | some tok => some (tok, cache)
    | none =>
      match fetched with
      | none => none
      | some tok =>
        if tok = "" then none
        else some (tok, cacheSet key ⟨tok, now + ACCESS_TOKEN_TTL_MS⟩ cache)

/-- The cache invariant: every stored entry expires no later than
`now + ACCESS_TOKEN_TTL_MS`.  Entries are stored with expiry
`storeTime + TTL`, so the invariant holds at any `now ≥` every store time. -/
def CacheWellFormed (cache : TokenCache) (now : Nat) : Prop :=
  ∀ kv ∈ cache, kv.2.expiresAt ≤ now + ACCESS_TOKEN_TTL_MS

instance (cache : TokenCache) (now : Nat) : Decidable (CacheWellFormed cache now) := by
  unfold CacheWellFormed
  infer_instance

end WecomAppApi

/-! ## C10 — `extractMediaFromText`
(src/packages/shared/src/media/media-parser.ts, lines 424-687)

The five regex phases (linked markdown images, markdown images, HTML `img`
tags, markdown file links, bare paths) use the JS regex engine, a platform
built-in; they only determine which `createExtractedMedia` values reach
`addMedia`, so they are modelled by the list of candidate items in document
order.  The deduplication (`seenSources`, the `localPath || source` key,
lines 441-465), the image/file partition, and the result assembly
(lines 681-686) are embedded exactly. -/

namespace MediaParser

/-- `MediaType` of media-parser.ts (named `MediaKind` here to avoid clashing
with the wecom-app plug-in's separate `MediaType`). -/
inductive MediaKind where
  | image
  | audio
  | video
  | file
deriving DecidableEq

/-- `ExtractedMedia`, restricted to the fields `addMedia` and the result
read. -/
structure ExtractedMedia where
  source : String
  localPath : Option String
  kind : MediaKind
  isLocal : Bool
  isHttp : Bool
deriving DecidableEq

/-- The deduplication key `media.localPath || media.source` (line 446),
with JS falsiness: an absent or empty `localPath` falls back to `source`. -/
def mediaKey (m : ExtractedMedia) : String :=
  match m.localPath with
  | some p => if p = "" then m.source else p
  | none => m.source

/-- The mutable state of one `extractMediaFromText` call. -/
structure ExtractState where
  seenSources : List String
  images : List ExtractedMedia
  files : List ExtractedMedia
deriving DecidableEq

/-- `addMedia` (lines 445-465): skip a seen key, optionally check local-file
existence, record the key, and push onto `images` or `files` by type. -/
def addMedia (checkExists : Bool) (existsFn : String → Bool)
    (st : ExtractState) (media : ExtractedMedia) : ExtractState × Bool :=
  let key := mediaKey media
  if key ∈ st.seenSources then (st, false)
  else if checkExists && media.isLocal && WecomAppCfg.optStrTruthy media.localPath
      && !existsFn (media.localPath.getD "") then (st, false)
  else
    let st1 : ExtractState :=
      { seenSources := key :: st.seenSources, images := st.images, files := st.files }
    if media.kind = .image then
      ({ st1 with images := st1.images ++ [media] }, true)
    else
      ({ st1 with files := st1.files ++ [media] }, true)

/-- Run `addMedia` over the candidate stream. -/
def extractFold (checkExists : Bool) (existsFn : String → Bool) :
    ExtractState → List ExtractedMedia → ExtractState
  | st, [] => st
  | st, m :: ms => extractFold checkExists existsFn (addMedia checkExists existsFn st m).1 ms

/-- The media lists of `MediaParseResult` (lines 681-686). -/
structure MediaParseResult where
  images : List ExtractedMedia
  files : List ExtractedMedia
  all : List ExtractedMedia
deriving DecidableEq

/-- `extractMediaFromText`, media-list part: fold the candidates through
`addMedia` starting from empty state and assemble
`{images, files, all := [...images, ...files]}`. -/
def extractMediaFromText (checkExists : Bool) (existsFn : String → Bool)
    (candidates : List ExtractedMedia) : MediaParseResult :=
  let st := extractFold checkExists existsFn ⟨[], [], []⟩ candidates
  ⟨st.images, st.files, st.images ++ st.files⟩

end MediaParser

/-! ## C7 — wecom-app outbound media routing
(src/unnamed/part_005, lines 551-605 `detectMediaType` and lines 949-1097
`wecomAppPlugin.outbound.sendMedia`) -/

namespace WecomAppPlugin

/-- The plug-in's `MediaType` (part_005 line 546). -/
inductive WAMediaType where
  | image
  | voice
  | file
deriving DecidableEq

/-- The image extension list (line 582). -/
def imageExts : List String := ["jpg", "jpeg", "png", "gif", "bmp", "webp"]

/-- The voice extension list (line 593). -/
def voiceExts : List String := ["amr", "speex", "mp3"]

/-- The extension branch of `detectMediaType` (lines 575-604):
`filePath.toLowerCase().split("?")[0].split(".").pop()` and the extension
tables, with `.svg` and `.wav` forced to `file`. -/
def detectMediaTypeByExt (filePath : String) : WAMediaType :=
  let lowered := JsStr.lowerChars filePath.data
  let beforeQuery := JsStr.headPiece (JsStr.splitChar '?' lowered)
  let ext := String.mk (JsStr.lastPiece (JsStr.splitChar '.' beforeQuery))
  if ext = "" then .file
  else if imageExts.contains ext then .image
  else if ext = "svg" then .file
  else if voiceExts.contains ext then .voice
  else if ext = "wav" then .file
  else .file

/-- `detectMediaType` (lines 551-605): the MIME branch
(`mimeType.split(";")[0].trim().toLowerCase()`, svg → file,
`image/*` → image, `audio/wav`/`audio/x-wav` → file, `audio/*` → voice),
falling through to the extension branch. -/
def detectMediaType (filePath : String) (mimeType : Option String) : WAMediaType :=
  match mimeType with
  | some mt =>
    let mime :=
      String.mk (JsStr.lowerChars (JsStr.trimChars (JsStr.headPiece (JsStr.splitChar ';' mt.data))))
    if JsStr.includesJS mime "svg" then .file
    else if JsStr.startsWithJS mime "image/" then .image
    else if mime = "audio/wav" || mime = "audio/x-wav" then .file
    else if JsStr.startsWithJS mime "audio/" || mime = "audio/amr" then .voice
    else detectMediaTypeByExt filePath
  | none => detectMediaTypeByExt filePath

/-- `(url.split("?")[0].match(/\.([^.]+)$/)?.[1] || "").toLowerCase()`
(line 1020): the extension after the last dot of the pre-query part, empty
when there is no dot or the dot is trailing. -/
def extOfUrl (url : String) : String :=
  let beforeQuery := JsStr.headPiece (JsStr.splitChar '?' url.data)
  match JsStr.splitChar '.' beforeQuery with
  | [] => ""
  | [_] => ""
  | pieces => String.mk (JsStr.lowerChars (JsStr.lastPiece pieces))

/-- One observable platform-facing step of `sendMedia`. -/
inductive MediaAction where
  | sendCaption (text : String)
  | sendImage (url : String)
  | sendVoice (url : String)
  | sendFile (url : String)
  | transcodeToAmr (inputPath outputPath : String)
  | removeTempFile (path : String)
deriving DecidableEq

/-- The media-routing logic of `wecomAppPlugin.outbound.sendMedia`
(part_005 lines 1001-1078) as the ordered list of platform-facing actions it
performs.  `transcodeEnabled` is `account.config.voiceTranscode?.enabled`,
`ffmpegAvailable` the result of `hasFfmpeg()`, `transcodeOk` whether
`transcodeToAmr` succeeds (its failure is caught and falls back to a file
send), and `tmpAmrPath` the generated
`os.tmpdir()/wecom-app-voice-<ts>.amr` output path. -/
def sendMediaRoute (mediaUrl : String) (mimeType : Option String) (caption : Option String)
    (transcodeEnabled ffmpegAvailable transcodeOk : Bool) (tmpAmrPath : String) :
    List MediaAction :=
  match detectMediaType mediaUrl mimeType with
  | .image => [.sendImage mediaUrl]
  | .voice =>
    let ext := extOfUrl mediaUrl
    let likelyUnsupported := ext = "wav" || ext = "mp3"
    if likelyUnsupported && transcodeEnabled then
      if ffmpegAvailable then
        if !JsStr.startsWithJS mediaUrl "http://" && !JsStr.startsWithJS mediaUrl "https://" then
          if transcodeOk then
            [.transcodeToAmr mediaUrl tmpAmrPath, .sendVoice tmpAmrPath,
              .removeTempFile tmpAmrPath]
          else
            [.transcodeToAmr mediaUrl tmpAmrPath, .sendFile mediaUrl]
        else
          [.sendFile mediaUrl]
      else
        [.sendFile mediaUrl]
    else if likelyUnsupported then
      [.sendFile mediaUrl]
    else
      [.sendVoice mediaUrl]
  | .file =>
    (match caption with
      | some t => if JsStr.trimJS t = "" then [] else [MediaAction.sendCaption t]
      | none => []) ++ [.sendFile mediaUrl]

end WecomAppPlugin

/-! ## C5 — DingTalk AI-card streaming
(src/extensions/dingtalk/src/card.ts, lines 202-287 `streamAICard`, and
src/extensions/dingtalk/src/bot.ts, lines 188-257, the `deliver` closure of
`handleAICardStreaming`) -/

namespace DingtalkCard

/-- `AICardInstance` (card.ts lines 38-45). -/
structure AICardInstance where
  cardInstanceId : String
  accessToken : String
  inputingStarted : Bool
deriving DecidableEq

/-- One HTTP request issued by the card streamer: the INPUTING status `PUT
/v1.0/card/instances` (card.ts lines 210-236) or a streaming `PUT
/v1.0/card/streaming` with the payload of lines 252-260. -/
inductive CardReq where
  | statusPut (outTrackId flowStatus : String)
  | streamPut (outTrackId guid key content : String) (isFull isFinalize isError : Bool)
deriving DecidableEq

/-- `AICardStatus.INPUTING` (card.ts line 26). -/
def INPUTING : String := "2"

/-- `streamAICard` (card.ts lines 202-287).  `guid` is the value of
`` `${Date.now()}_${Math.random()...}` `` generated for this call
(line 254); `statusPutOk` / `streamPutOk` are the `resp.ok` of the two HTTP
calls.  Returns the requests issued in order, whether the call returned
normally (`false` models a thrown error), and the card state afterwards:
the INPUTING PUT is issued first iff `inputingStarted` is false, and
`inputingStarted` is set only after that PUT succeeded. -/
def streamAICard (card : AICardInstance) (guid content : String) (finished : Bool)
    (statusPutOk streamPutOk : Bool) : List CardReq × Bool × AICardInstance :=
  if card.inputingStarted then
    ([.streamPut card.cardInstanceId guid "msgContent" content true finished false],
      streamPutOk, card)
  else
    let statusReq := CardReq.statusPut card.cardInstanceId INPUTING
    if statusPutOk then
      let card1 : AICardInstance :=
        { cardInstanceId := card.cardInstanceId, accessToken := card.accessToken,
          inputingStarted := true }
      ([statusReq,
        .streamPut card.cardInstanceId guid "msgContent" content true finished false],
        streamPutOk, card1)
    else
      ([statusReq], false, card)

/-- The per-call environment of one `deliver` invocation in
`handleAICardStreaming`: the payload text, the value of `Date.now()`, the
guid generated if a stream update is issued, and the outcomes of the HTTP
PUTs. -/
structure DeliverEvent where
  text : String
  now : Nat
  guid : String
  statusPutOk : Bool
  streamPutOk : Bool
deriving DecidableEq

/-- The state captured by the `deliver` closure (bot.ts lines 185-226):
`accumulated`, `lastUpdateTime` and the card. -/
structure StreamCtx where
  accumulated : String
  lastUpdateTime : Nat
  card : AICardInstance
deriving DecidableEq

/-- `updateInterval = 300` (bot.ts line 190). -/
def updateInterval : Nat := 300

/-- One `deliver` invocation (bot.ts lines 210-226): skip blank payloads,
append to `accumulated`, and issue a non-final `streamAICard` update only
when `now - lastUpdateTime >= updateInterval`; `lastUpdateTime := now` runs
only when `streamAICard` returned normally (on a throw the closure exits
early).  Returns the new state and the requests issued. -/
def deliverStep (ctx : StreamCtx) (e : DeliverEvent) : StreamCtx × List CardReq :=
  if JsStr.trimJS e.text = "" then (ctx, [])
  else
    let acc := ctx.accumulated ++ e.text
    if updateInterval ≤ e.now - ctx.lastUpdateTime then
      let r := streamAICard ctx.card e.guid acc false e.statusPutOk e.streamPutOk
      if r.2.1 then
        ({ accumulated := acc, lastUpdateTime := e.now, card := r.2.2 }, r.1)
      else
        ({ accumulated := acc, lastUpdateTime := ctx.lastUpdateTime, card := r.2.2 }, r.1)
    else
      ({ accumulated := acc, lastUpdateTime := ctx.lastUpdateTime, card := ctx.card }, [])

/-- Run a sequence of `deliver` invocations, collecting for each one the
clock value and the requests it issued. -/
def deliverRun (ctx : StreamCtx) : List DeliverEvent → StreamCtx × List (Nat × List CardReq)
  | [] => (ctx, [])
  | e :: es =>
    let r := deliverStep ctx e
    let rest := deliverRun r.1 es
    (rest.1, (e.now, r.2) :: rest.2)

/-- Event clocks are non-decreasing (`Date.now()` is monotone across the
successive `deliver` calls). -/
def timesMonotone : Nat → List DeliverEvent → Bool
  | _, [] => true
  | prev, e :: es => prev ≤ e.now && timesMonotone e.now es

/-- All HTTP PUTs in a run succeed. -/
def allPutsOk : List DeliverEvent → Bool
  | [] => true
  | e :: es => e.statusPutOk && e.streamPutOk && allPutsOk es

/-- The times of the invocations that issued at least one request. -/
def emissionTimes : List (Nat × List CardReq) → List Nat
  | [] => []
  | (t, reqs) :: rest =>
    if reqs = [] then emissionTimes rest else t :: emissionTimes rest

/-- Successive elements are at least `gap` apart. -/
def gapsAtLeast (gap : Nat) : List Nat → Bool
  | [] => true
  | [_] => true
  | a :: b :: rest => a + gap ≤ b && gapsAtLeast gap (b :: rest)

end DingtalkCard

/-! ## C9 / C6 — `stripMarkdown`
(src/unnamed/part_006, lines 181-268; textually identical copy in
src/unnamed/part_007, lines 19-106)

The thirteen `String.prototype.replace` passes are embedded one by one as
left-to-right scanners over `List Char`, reproducing the JS regex semantics
of each pattern: leftmost match, global continuation after the match end
(replacements are not rescanned), one-character advance on a failed match
attempt, `^`/`$` as line anchors (`m` flag), `.` not matching newline, and
`\s` matching newline.  Each scanner carries a fuel argument (instantiated
with the input length; every step consumes at least one input character) so
that it is structurally recursive and kernel-executable. -/

namespace StripMd

/-- The backtick character. -/
def bt : Char := Char.ofNat 96

/-- Join char-list pieces with a separator character. -/
def joinSep (sep : Char) : List (List Char) → List Char
  | [] => []
  | [p] => p
  | p :: rest => p ++ sep :: joinSep sep rest

/-- Earliest occurrence of a triple of `d`: split into the part before it
and the part after it. -/
def splitAtTriple (d : Char) : List Char → Option (List Char × List Char)
  | [] => none
  | c :: cs =>
    if JsStr.isPrefixB [d, d, d] (c :: cs) then some ([], cs.drop 2)
    else
      match splitAtTriple d cs with
      | some (pre, post) => some (c :: pre, post)
      | none => none

/-- The replacement callback of pass 1 (lines 185-194): trim the captured
code, drop empty blocks, otherwise emit a newline, an optional `[lang]`
label line, and the code indented by four spaces. -/
def codeBlockRepl (lang code : List Char) : List Char :=
  let trimmedCode := JsStr.trimChars code
  if trimmedCode = [] then []
  else
    let langLabel := if lang = [] then [] else '[' :: lang ++ [']', '\n']
    let indented :=
      joinSep '\n' ((JsStr.splitChar '\n' trimmedCode).map
        (fun line => ' ' :: ' ' :: ' ' :: ' ' :: line))
    '\n' :: langLabel ++ indented ++ ['\n']

/-- Pass 1 (line 185): ``/```(\w*)\n?([\s\S]*?)```/g``.  At a fence, the
language is the greedy `\w*` run, one following newline is absorbed, and
the lazy body ends at the earliest closing fence; without a closing fence
the scan advances one character. -/
def codeBlockPass : Nat → List Char → List Char
  | 0, l => l
  | _ + 1, [] => []
  | fuel + 1, c :: cs =>
    if JsStr.isPrefixB [bt, bt, bt] (c :: cs) then
      let afterFence := cs.drop 2
      let lang := afterFence.takeWhile JsStr.isWordB
      let afterLang := afterFence.drop lang.length
      let body :=
        match afterLang with
        | '\n' :: rest => rest
        | rest => rest
      match splitAtTriple bt body with
      | some (code, rest) => codeBlockRepl lang code ++ codeBlockPass fuel rest
      | none => c :: codeBlockPass fuel cs
    else c :: codeBlockPass fuel cs

/-- The heading match attempt at a line start, for pass 2 (line 197):
`/^#{1,6}\s+(.+)$/gm`.  Returns the replacement and the remaining input.
The hash run must have length 1-6 (a longer run leaves `\s` unmatched under
any backtracking), `\s+` takes the maximal whitespace run (newlines
included), and `(.+)$` takes the rest of the line; when the line has no
content after the whitespace, backtracking hands the last non-newline
whitespace character of the run to `(.+)`. -/
def headingMatch (l : List Char) : Option (List Char × List Char) :=
  let hashes := l.takeWhile (· = '#')
  let r := hashes.length
  if 1 ≤ r && r ≤ 6 then
    let afterHash := l.drop r
    let w := afterHash.takeWhile JsStr.isWs
    if w = [] then none
    else
      let q := afterHash.drop w.length
      match q with
      | c :: _ =>
        if c = '\n' then
          let trailingNl := w.reverse.takeWhile (· = '\n')
          match w.reverse.drop trailingNl.length with
          | [] => none
          | cc :: _ => some ('【' :: cc :: ['】'], trailingNl.reverse ++ q)
        else
          let content := q.takeWhile (· ≠ '\n')
          some ('【' :: content ++ ['】'], q.drop content.length)
      | [] =>
        let trailingNl := w.reverse.takeWhile (· = '\n')
        match w.reverse.drop trailingNl.length with
        | [] => none
        | cc :: _ => some ('【' :: cc :: ['】'], trailingNl.reverse)
  else none

/-- Pass 2 (line 197): headings become `【...】`.  The Boolean argument
tracks whether the scanner stands at a line start. -/
def headingPass : Nat → Bool → List Char → List Char
  | 0, _, l => l
  | _ + 1, _, [] => []
  | fuel + 1, atStart, c :: cs =>
    if atStart && c = '#' then
      match headingMatch (c :: cs) with
      | some (repl, rest) => repl ++ headingPass fuel false rest
      | none => c :: headingPass fuel (c = '\n') cs
    else c :: headingPass fuel (c = '\n') cs

/-- Earliest double-`d` close with a newline-free lazy body before it, for
`\*\*(.*?)\*\*`-shaped patterns. -/
def findClose2 (d : Char) : List Char → Option (List Char × List Char)
  | [] => none
  | c :: cs =>
    if JsStr.isPrefixB [d, d] (c :: cs) then some ([], cs.drop 1)
    else if c = '\n' then none
    else
      match findClose2 d cs with
      | some (pre, post) => some (c :: pre, post)
      | none => none

/-- Passes 3 (bold `**`), 3 (`__`) and 7 (`~~`): `/dd(.*?)dd/g`, keeping the
body. -/
def pairPass2 (d : Char) : Nat → List Char → List Char
  | 0, l => l
  | _ + 1, [] => []
  | fuel + 1, c :: cs =>
    if JsStr.isPrefixB [d, d] (c :: cs) then
      match findClose2 d (cs.drop 1) with
      | some (body, rest) => body ++ pairPass2 d fuel rest
      | none => c :: pairPass2 d fuel cs
    else c :: pairPass2 d fuel cs

/-- Earliest single-`d` close with a newline-free lazy body before it. -/
def findClose1 (d : Char) : List Char → Option (List Char × List Char)
  | [] => none
  | c :: cs =>
    if c = d then some ([], cs)
    else if c = '\n' then none
    else
      match findClose1 d cs with
      | some (pre, post) => some (c :: pre, post)
      | none => none

/-- Pass 3 (single-star italic): `/\*(.*?)\*/g`, keeping the body. -/
def pairPass1 (d : Char) : Nat → List Char → List Char
  | 0, l => l
  | _ + 1, [] => []
  | fuel + 1, c :: cs =>
    if c = d then
      match findClose1 d cs with
      | some (body, rest) => body ++ pairPass1 d fuel rest
      | none => c :: pairPass1 d fuel cs
    else c :: pairPass1 d fuel cs

/-- A character blocking the `_` italic lookarounds (`[\w/]`). -/
def isWordSlash (c : Char) : Bool := JsStr.isWordB c || c = '/'

/-- Close search for pass 3's `/(?<![\w\/])_(.+?)_(?![\w\/])/g`: the
earliest `_` preceded by a non-empty newline-free body and followed by a
character outside `[\w/]` (or the end); an `_` failing the lookahead joins
the body. -/
def findCloseU : Bool → List Char → Option (List Char × List Char)
  | _, [] => none
  | bodyNonempty, c :: cs =>
    if c = '\n' then none
    else if c = '_' && bodyNonempty &&
        (match cs with
          | [] => true
          | d :: _ => !isWordSlash d) then
      some ([], cs)
    else
      match findCloseU true cs with
      | some (pre, post) => some (c :: pre, post)
      | none => none

/-- Pass 3, standalone-underscore italics.  `prev` is the input character
before the current position (for the negative lookbehind). -/
def underscorePass : Nat → Option Char → List Char → List Char
  | 0, _, l => l
  | _ + 1, _, [] => []
  | fuel + 1, prev, c :: cs =>
    let blocked :=
      match prev with
      | some p => isWordSlash p
      | none => false
    if c = '_' && !blocked then
      match findCloseU false cs with
      | some (body, rest) => body ++ underscorePass fuel (some '_') rest
      | none => c :: underscorePass fuel (some c) cs
    else c :: underscorePass fuel (some c) cs

/-- Pass 4 (line 208): `/^[-*]\s+/gm` becomes `"· "`.  The whitespace run
may contain newlines; the scanner stands at a line start again afterwards
iff the run ended with one. -/
def listPass : Nat → Bool → List Char → List Char
  | 0, _, l => l
  | _ + 1, _, [] => []
  | fuel + 1, atStart, c :: cs =>
    if atStart && (c = '-' || c = '*') then
      let w := cs.takeWhile JsStr.isWs
      if w = [] then c :: listPass fuel false cs
      else
        let rest := cs.drop w.length
        '·' :: ' ' :: listPass fuel (w.getLast? = some '\n') rest
    else c :: listPass fuel (c = '\n') cs

/-- Pass 5 (line 211): `/^(\d+)\.\s+/gm` becomes `"$1. "`. -/
def orderedPass : Nat → Bool → List Char → List Char
  | 0, _, l => l
  | _ + 1, _, [] => []
  | fuel + 1, atStart, c :: cs =>
    if atStart && JsStr.isDigitB c then
      let digits := (c :: cs).takeWhile JsStr.isDigitB
      match (c :: cs).drop digits.length with
      | '.' :: afterDot =>
        let w := afterDot.takeWhile JsStr.isWs
        if w = [] then c :: orderedPass fuel false cs
        else
          digits ++ '.' :: ' ' ::
            orderedPass fuel (w.getLast? = some '\n') (afterDot.drop w.length)
      | _ => c :: orderedPass fuel false cs
    else c :: orderedPass fuel (c = '\n') cs

/-- Pass 6 (line 214): ``/`([^`]+)`/g`` keeps the body (which may span
newlines). -/
def inlineCodePass : Nat → List Char → List Char
  | 0, l => l
  | _ + 1, [] => []
  | fuel + 1, c :: cs =>
    if c = bt then
      let body := cs.takeWhile (· ≠ bt)
      match cs.drop body.length with
      | _ :: rest =>
        if body = [] then c :: inlineCodePass fuel cs
        else body ++ inlineCodePass fuel rest
      | [] => c :: inlineCodePass fuel cs
    else c :: inlineCodePass fuel cs

/-- Pass 8 (line 220): `/\[([^\]]+)\]\(([^)]+)\)/g` becomes `"$1 ($2)"`. -/
def linkPass : Nat → List Char → List Char
  | 0, l => l
  | _ + 1, [] => []
  | fuel + 1, c :: cs =>
    (if c = '[' then
      let label := cs.takeWhile (· ≠ ']')
      if label = [] then none
      else
        match cs.drop label.length with
        | _ :: '(' :: afterParen =>
          let url := afterParen.takeWhile (· ≠ ')')
          if url = [] then none
          else
            match afterParen.drop url.length with
            | _ :: rest => some (label ++ ' ' :: '(' :: url ++ [')'], rest)
            | [] => none
        | _ => none
    else none).elim (c :: linkPass fuel cs) (fun pr => pr.1 ++ linkPass fuel pr.2)

/-- Pass 9 (line 223): `/!\[([^\]]*)\]\([^)]+\)/g` becomes `"[图片: $1]"`
(the alt text may be empty). -/
def imagePass : Nat → List Char → List Char
  | 0, l => l
  | _ + 1, [] => []
  | fuel + 1, c :: cs =>
    (if c = '!' then
      match cs with
      | c2 :: afterBracket =>
        if c2 = '[' then
          let alt := afterBracket.takeWhile (· ≠ ']')
          match afterBracket.drop alt.length with
          | _ :: '(' :: afterParen =>
            let url := afterParen.takeWhile (· ≠ ')')
            if url = [] then none
            else
              match afterParen.drop url.length with
              | _ :: rest =>
                some ('[' :: '图' :: '片' :: ':' :: ' ' :: alt ++ [']'], rest)
              | [] => none
          | _ => none
        else none
      | [] => none
    else none).elim (c :: imagePass fuel cs) (fun pr => pr.1 ++ imagePass fuel pr.2)

end StripMd

namespace StripMd

/-- The row-atom prefix `\|.+\|` of pass 10's body group: a line starting
with `|`, cut at its last `|` (which greedy backtracking selects), with at
least one character between; returns the row and the leftover line tail. -/
def lastBarSplit (line : List Char) : Option (List Char × List Char) :=
  match line with
  | '|' :: _ =>
    let rev := line.reverse
    let leftover := rev.takeWhile (· ≠ '|')
    let row := (rev.drop leftover.length).reverse
    if 3 ≤ row.length && row.getLast? = some '|' then some (row, leftover.reverse)
    else none
  | _ => none

/-- The body group `((?:\|.+\|\n?)*)` of pass 10: greedily collect row
atoms; an atom's optional newline is consumed only when the atom covered
its whole line, and a leftover line tail (or a non-`|` line) stops the
collection.  Returns the rows and the remaining input. -/
def collectRows : Nat → List Char → List (List Char) × List Char
  | 0, l => ([], l)
  | fuel + 1, l =>
    match l with
    | [] => ([], [])
    | c :: _ =>
      if c = '|' then
        let line := l.takeWhile (· ≠ '\n')
        match lastBarSplit line with
        | some (row, leftover) =>
          if leftover = [] then
            match l.drop line.length with
            | '\n' :: rest =>
              let r := collectRows fuel rest
              (row :: r.1, r.2)
            | rest => ([row], rest)
          else ([row], l.drop row.length)
        | none => ([], l)
      else ([], l)

/-- `cells.split("|").map(trim).filter(Boolean)` (lines 229-232). -/
def cellSplit (l : List Char) : List (List Char) :=
  ((JsStr.splitChar '|' l).map JsStr.trimChars).filter (· ≠ [])

/-- `String.prototype.padEnd` with spaces. -/
def padEnd (l : List Char) (w : Nat) : List Char :=
  l ++ List.replicate (w - l.length) ' '

/-- `Math.max(...)` over a list, with 0 for the empty spread (the fold's
base never exceeds the header-cell length it is compared with). -/
def maxNat (l : List Nat) : Nat := l.foldr max 0

/-- Join with the two-space column separator. -/
def joinCols (cols : List (List Char)) : List Char :=
  match cols with
  | [] => []
  | [p] => p
  | p :: rest => p ++ ' ' :: ' ' :: joinCols rest

/-- The replacement callback of pass 10 (lines 228-255): split header and
row cells, compute column widths, and lay the table out as padded columns.
`rowLines` are the captured row atoms; an empty body behaves as the single
empty row produced by `"".split("\n")`. -/
def tableRepl (header : List Char) (rowLines : List (List Char)) : List Char :=
  let headerCells := cellSplit header
  let rowStrs := if rowLines = [] then [[]] else rowLines
  let rows := rowStrs.map cellSplit
  let colWidths := (List.range headerCells.length).map (fun i =>
    max (headerCells.getD i []).length (maxNat (rows.map (fun r => (r.getD i []).length))))
  let formattedHeader :=
    joinCols ((List.range headerCells.length).map (fun i =>
      padEnd (headerCells.getD i []) (colWidths.getD i 0)))
  let formattedRows :=
    joinSep '\n' (rows.map (fun r =>
      joinCols ((List.range headerCells.length).map (fun i =>
        padEnd (r.getD i []) (colWidths.getD i 0)))))
  formattedHeader ++ '\n' :: formattedRows ++ ['\n']

/-- The match attempt of pass 10 (line 227):
`/\|(.+)\|\n\|[-:| ]+\|\n((?:\|.+\|\n?)*)/g` — a `|`-delimited header line,
a separator line over `[-:| ]`, then the row atoms. -/
def tableMatch (fuel : Nat) (l : List Char) : Option (List Char × List Char) :=
  let line := l.takeWhile (· ≠ '\n')
  if 3 ≤ line.length && line.getLast? = some '|' then
    match l.drop line.length with
    | '\n' :: rest1 =>
      let sepLine := rest1.takeWhile (· ≠ '\n')
      if 3 ≤ sepLine.length && sepLine.head? = some '|' && sepLine.getLast? = some '|'
          && sepLine.all (fun ch => ch = '-' || ch = ':' || ch = '|' || ch = ' ') then
        match rest1.drop sepLine.length with
        | '\n' :: rest2 =>
          let rr := collectRows fuel rest2
          some (tableRepl (line.drop 1).dropLast rr.1, rr.2)
        | _ => none
      else none
    | _ => none
  else none

/-- Pass 10: tables become padded-column text. -/
def tablePass : Nat → List Char → List Char
  | 0, l => l
  | _ + 1, [] => []
  | fuel + 1, c :: cs =>
    if c = '|' then
      match tableMatch fuel (c :: cs) with
      | some (repl, rest) => repl ++ tablePass fuel rest
      | none => c :: tablePass fuel cs
    else c :: tablePass fuel cs

/-- Pass 11 (line 259): `/^>\s?/gm` is removed; a consumed newline leaves
the scanner at a line start again. -/
def quotePass : Nat → Bool → List Char → List Char
  | 0, _, l => l
  | _ + 1, _, [] => []
  | fuel + 1, atStart, c :: cs =>
    if atStart && c = '>' then
      match cs with
      | d :: rest =>
        if JsStr.isWs d then quotePass fuel (d = '\n') rest
        else quotePass fuel false cs
      | [] => []
    else c :: quotePass fuel (c = '\n') cs

/-- Pass 12 (line 262): `/^[-*_]{3,}$/gm` becomes a 12-character rule. -/
def hrPass : Nat → Bool → List Char → List Char
  | 0, _, l => l
  | _ + 1, _, [] => []
  | fuel + 1, atStart, c :: cs =>
    if atStart && (c = '-' || c = '*' || c = '_') then
      let run := (c :: cs).takeWhile (fun ch => ch = '-' || ch = '*' || ch = '_')
      let rest := (c :: cs).drop run.length
      if 3 ≤ run.length && (rest.head?.getD '\n') = '\n' then
        List.replicate 12 '─' ++ hrPass fuel false rest
      else c :: hrPass fuel false cs
    else c :: hrPass fuel (c = '\n') cs

/-- Pass 13 (line 265): `/\n{3,}/g` becomes `"\n\n"`. -/
def mergePass : Nat → List Char → List Char
  | 0, l => l
  | _ + 1, [] => []
  | fuel + 1, c :: cs =>
    if c = '\n' then
      if 3 ≤ ((c :: cs).takeWhile (· = '\n')).length then
        '\n' :: '\n' :: mergePass fuel ((c :: cs).drop ((c :: cs).takeWhile (· = '\n')).length)
      else c :: mergePass fuel cs
    else c :: mergePass fuel cs

/-- `stripMarkdown` (part_006 lines 181-268 = part_007 lines 19-106): the
thirteen replacement passes in source order, followed by the final
`.trim()`. -/
def stripMarkdown (s : String) : String :=
  let l0 := s.data
  let l1 := codeBlockPass l0.length l0
  let l2 := headingPass l1.length true l1
  let l3 := pairPass2 '*' l2.length l2
  let l4 := pairPass1 '*' l3.length l3
  let l5 := pairPass2 '_' l4.length l4
  let l6 := underscorePass l5.length none l5
  let l7 := listPass l6.length true l6
  let l8 := orderedPass l7.length true l7
  let l9 := inlineCodePass l8.length l8
  let l10 := pairPass2 '~' l9.length l9
  let l11 := linkPass l10.length l10
  let l12 := imagePass l11.length l11
  let l13 := tablePass l12.length l12
  let l14 := quotePass l13.length true l13
  let l15 := hrPass l14.length true l14
  let l16 := mergePass l15.length l15
  String.mk (JsStr.trimChars l16)

/-- A character that can trigger one of the replacement passes 1-12: the
fence/emphasis/strike/link/table/quote/list/rule metacharacters and the
digits of ordered-list markers. -/
def isMarker (c : Char) : Bool :=
  c = '#' || c = '*' || c = '_' || c = '~' || c = '[' || c = '|' || c = '>' || c = '-' ||
    c = bt || JsStr.isDigitB c

/-- No character of the list is a pass trigger. -/
def markerFree : List Char → Bool
  | [] => true
  | c :: cs => !isMarker c && markerFree cs

/-- The list contains three consecutive newlines (the trigger of
pass 13). -/
def hasTriple (l : List Char) : Bool := JsStr.containsB ['\n', '\n', '\n'] l

end StripMd

/-! ## C6 — `sendWecomAppMessage` (src/unnamed/part_006, lines 544-590) -/

namespace WecomAppApi

/-- The JSON fields of a `message/send` response. -/
structure SendResponse where
  errcode : Option Int
  errmsg : Option String
  invaliduser : Option String
  invalidparty : Option String
  invalidtag : Option String
  msgid : Option String
deriving DecidableEq

/-- `SendMessageResult` (lines 321-329). -/
structure SendMessageResult where
  ok : Bool
  errcode : Option Int
  errmsg : Option String
  invaliduser : Option String
  invalidparty : Option String
  invalidtag : Option String
  msgid : Option String
deriving DecidableEq

/-- One POST to `/cgi-bin/message/send`, recorded by its text payload and
recipient. -/
structure SendCall where
  touser : Option String
  content : String
deriving DecidableEq

/-- `sendWecomAppMessage` (lines 544-590).  `gettokenResult` models the
`gettoken` response exactly as in `getAccessToken`; `sendResp` models the
parsed JSON of the one `message/send` POST.  The result triple is the
returned `SendMessageResult` (`none` when the source throws), the token
cache afterwards, and the list of `message/send` POSTs that were issued:
the source issues at most one and inspects `errcode` only to compute
`ok := errcode === 0` — there is no eviction of the token cache and no
retry on any error code. -/
def sendWecomAppMessage (account : ApiAccount) (targetUserId : Option String)
    (message : String) (cache : TokenCache) (now : Nat) (gettokenResult : Option String)
    (sendResp : SendResponse) : Option SendMessageResult × TokenCache × List SendCall :=
  if !account.canSendActive then
    (some ⟨false, some (-1),
      some "Account not configured for active sending (missing corpId, corpSecret, or agentId)",
      none, none, none, none⟩, cache, [])
  else
    match getAccessToken account cache now gettokenResult with
    | none => (none, cache, [])
    | some (_, cache1) =>
      let text := StripMd.stripMarkdown message
      (some ⟨sendResp.errcode == some 0, sendResp.errcode, sendResp.errmsg,
        sendResp.invaliduser, sendResp.invalidparty, sendResp.invalidtag, sendResp.msgid⟩,
        cache1, [⟨targetUserId, text⟩])

end WecomAppApi

/-! ## C2 — the WeCom signature check (src/unnamed/part_008, lines 36-66)

`sha1Hex` wraps `crypto.createHash("sha1")`; the SHA-1 algorithm itself
(FIPS 180) is embedded concretely so that digests are computable. -/

namespace WecomCrypto

/-- 2^32. -/
def M32 : Nat := 4294967296

/-- 32-bit left rotation of `x < 2^32` by `n ≤ 32` bits. -/
def rotl (n x : Nat) : Nat := (x % 2 ^ (32 - n)) * 2 ^ n + x / 2 ^ (32 - n)

/-- UTF-8 encoding of one code point. -/
def utf8EncodeCp (n : Nat) : List Nat :=
  if n < 128 then [n]
  else if n < 2048 then [192 + n / 64, 128 + n % 64]
  else if n < 65536 then [224 + n / 4096, 128 + n / 64 % 64, 128 + n % 64]
  else [240 + n / 262144, 128 + n / 4096 % 64, 128 + n / 64 % 64, 128 + n % 64]

/-- The UTF-8 bytes of a string (`crypto.Hash.update`'s default input
encoding, and `Buffer.from(s, "utf8")`). -/
def utf8Bytes (s : String) : List Nat :=
  (s.data.map (fun c => utf8EncodeCp c.toNat)).flatten

/-- Big-endian 8-byte encoding. -/
def u64be (n : Nat) : List Nat :=
  [n / 72057594037927936 % 256, n / 281474976710656 % 256, n / 1099511627776 % 256,
    n / 4294967296 % 256, n / 16777216 % 256, n / 65536 % 256, n / 256 % 256, n % 256]

/-- SHA-1 message padding: `0x80`, zeros to 56 mod 64, the bit length. -/
def sha1Pad (msg : List Nat) : List Nat :=
  let zeros := (64 - (msg.length + 9) % 64) % 64
  msg ++ 128 :: List.replicate zeros 0 ++ u64be (8 * msg.length)

/-- Big-endian 32-bit words from bytes. -/
def bytesToWords : List Nat → List Nat
  | b0 :: b1 :: b2 :: b3 :: rest =>
    (b0 * 16777216 + b1 * 65536 + b2 * 256 + b3) :: bytesToWords rest
  | _ => []

/-- Chunk a word list into 16-word blocks (fuel = list length). -/
def chunkWords : Nat → List Nat → List (List Nat)
  | 0, _ => []
  | _ + 1, [] => []
  | fuel + 1, w :: ws => (w :: ws).take 16 :: chunkWords fuel ((w :: ws).drop 16)

/-- Extend a 16-word block by `k` schedule words. -/
def extendWords : Nat → List Nat → List Nat
  | 0, ws => ws
  | k + 1, ws =>
    let n := ws.length
    let w := rotl 1 (ws.getD (n - 3) 0 ^^^ ws.getD (n - 8) 0 ^^^ ws.getD (n - 14) 0 ^^^
      ws.getD (n - 16) 0)
    extendWords k (ws ++ [w])

/-- The SHA-1 round function. -/
def sha1F (t b c d : Nat) : Nat :=
  if t < 20 then (b &&& c) ||| ((b ^^^ 4294967295) &&& d)
  else if t < 40 then b ^^^ c ^^^ d
  else if t < 60 then (b &&& c) ||| (b &&& d) ||| (c &&& d)
  else b ^^^ c ^^^ d

/-- The SHA-1 round constants. -/
def sha1K (t : Nat) : Nat :=
  if t < 20 then 1518500249
  else if t < 40 then 1859775393
  else if t < 60 then 2400959708
  else 3395469782

/-- The 80 SHA-1 rounds over the scheduled words. -/
def sha1Rounds : List (Nat × Nat) → Nat × Nat × Nat × Nat × Nat → Nat × Nat × Nat × Nat × Nat
  | [], st => st
  | (t, w) :: rest, (a, b, c, d, e) =>
    let temp := (rotl 5 a + sha1F t b c d + e + sha1K t + w) % M32
    sha1Rounds rest (temp, a, rotl 30 b, c, d)

/-- One SHA-1 block step. -/
def sha1Block (h : Nat × Nat × Nat × Nat × Nat) (block : List Nat) :
    Nat × Nat × Nat × Nat × Nat :=
  let ws := extendWords 64 block
  match h, sha1Rounds ((List.range 80).zip ws) h with
  | (h0, h1, h2, h3, h4), (a, b, c, d, e) =>
    ((h0 + a) % M32, (h1 + b) % M32, (h2 + c) % M32, (h3 + d) % M32, (h4 + e) % M32)

/-- The SHA-1 digest of a byte message, as five 32-bit words. -/
def sha1Digest (msg : List Nat) : List Nat :=
  let ws := bytesToWords (sha1Pad msg)
  let blocks := chunkWords ws.length ws
  match blocks.foldl sha1Block (1732584193, 4023233417, 2562383102, 271733878, 3285377520) with
  | (h0, h1, h2, h3, h4) => [h0, h1, h2, h3, h4]

/-- A lowercase hex digit. -/
def hexDigit (n : Nat) : Char :=
  if n < 10 then Char.ofNat (48 + n) else Char.ofNat (87 + n)

/-- Eight lowercase hex digits of a 32-bit word. -/
def hex8 (w : Nat) : List Char :=
  [hexDigit (w / 268435456 % 16), hexDigit (w / 16777216 % 16), hexDigit (w / 1048576 % 16),
    hexDigit (w / 65536 % 16), hexDigit (w / 4096 % 16), hexDigit (w / 256 % 16),
    hexDigit (w / 16 % 16), hexDigit (w % 16)]

/-- `sha1Hex` (part_008 lines 36-38):
`crypto.createHash("sha1").update(input).digest("hex")` — the lowercase hex
SHA-1 digest of the string's UTF-8 bytes. -/
def sha1Hex (input : String) : String :=
  String.mk ((sha1Digest (utf8Bytes input)).map hex8).flatten

/-- Lexicographic `<` on code units, the order of JS default `sort`. -/
def jsLtChars : List Char → List Char → Bool
  | [], [] => false
  | [], _ :: _ => true
  | _ :: _, [] => false
  | a :: as_, b :: bs =>
    if a.toNat < b.toNat then true
    else if b.toNat < a.toNat then false
    else jsLtChars as_ bs

/-- Insert into a sorted list (JS default string order). -/
def insertSorted (s : String) : List String → List String
  | [] => [s]
  | t :: ts => if jsLtChars t.data s.data then t :: insertSorted s ts else s :: t :: ts

/-- `Array.prototype.sort()` on strings: sort by code-unit order (insertion
sort; any comparison sort yields the same list for a total order). -/
def sortJS (l : List String) : List String := l.foldr insertSorted []

/-- `computeWecomMsgSignature` (part_008 lines 40-50):
`sha1(sort([token, timestamp, nonce, encrypt]).join(""))`. -/
def computeWecomMsgSignature (token timestamp nonce encrypt : String) : String :=
  sha1Hex (String.join (sortJS [token, timestamp, nonce, encrypt]))

/-- `verifyWecomSignature` (part_008 lines 52-66): the expected digest is
compared with `===` — case-sensitively — against the supplied signature. -/
def verifyWecomSignature (token timestamp nonce encrypt signature : String) : Bool :=
  computeWecomMsgSignature token timestamp nonce encrypt == signature

/-- ASCII `toUpperCase` of one char. -/
def upperChar (c : Char) : Char :=
  if 97 ≤ c.toNat && c.toNat ≤ 122 then Char.ofNat (c.toNat - 32) else c

/-- ASCII `String.prototype.toUpperCase`. -/
def toUpperJS (s : String) : String := String.mk (s.data.map upperChar)

end WecomCrypto

/-! ## C1 — WeCom payload encryption and decryption
(src/unnamed/part_008, lines 3-126)

Byte strings (`plaintext`, `receiveId`) enter these functions as their
UTF-8 bytes (`Buffer.from(s, "utf8")` / `buffer.toString("utf8")`, which
are mutually inverse), so both are modelled as `List Nat`.  The AES-256
block primitive (`crypto.createCipheriv("aes-256-cbc", ...)` with
`setAutoPadding(false)`) is external to the repository; it is modelled as
an abstract pair of functions on 16-byte blocks, keyed by the decoded AES
key, while the CBC chaining over it, the base64 codec, the PKCS#7 padding
with block size 32, and the `random16 ‖ uint32BE(len) ‖ msg ‖ receiveId`
framing are embedded from the source. -/

namespace WecomCrypto

/-- Value of one standard base64 alphabet character (`Buffer.from(_,
"base64")` ignores `=` and characters outside the alphabet). -/
def b64CharVal (c : Char) : Option Nat :=
  let n := c.toNat
  if 65 ≤ n && n ≤ 90 then some (n - 65)
  else if 97 ≤ n && n ≤ 122 then some (n - 71)
  else if 48 ≤ n && n ≤ 57 then some (n + 4)
  else if c = '+' then some 62
  else if c = '/' then some 63
  else none

/-- The base64 alphabet character of a sextet. -/
def b64Char (n : Nat) : Char :=
  if n < 26 then Char.ofNat (65 + n)
  else if n < 52 then Char.ofNat (97 + n - 26)
  else if n < 62 then Char.ofNat (48 + n - 52)
  else if n = 62 then '+'
  else '/'

/-- Reassemble bytes from base64 sextets (4 sextets → 3 bytes; 3 → 2;
2 → 1; a lone trailing sextet contributes nothing). -/
def sextetsToBytes : List Nat → List Nat
  | a :: b :: c :: d :: rest =>
    (a * 4 + b / 16) :: ((b % 16) * 16 + c / 4) :: ((c % 4) * 64 + d) :: sextetsToBytes rest
  | [a, b] => [a * 4 + b / 16]
  | [a, b, c] => [a * 4 + b / 16, (b % 16) * 16 + c / 4]
  | _ => []

/-- `Buffer.from(s, "base64")`. -/
def b64decode (s : String) : List Nat := sextetsToBytes (s.data.filterMap b64CharVal)

/-- Standard base64 encoding with `=` padding (`buffer.toString("base64")`). -/
def b64encodeChars : List Nat → List Char
  | b0 :: b1 :: b2 :: rest =>
    b64Char (b0 / 4) :: b64Char ((b0 % 4) * 16 + b1 / 16) :: b64Char ((b1 % 16) * 4 + b2 / 64)
      :: b64Char (b2 % 64) :: b64encodeChars rest
  | [b0, b1] => [b64Char (b0 / 4), b64Char ((b0 % 4) * 16 + b1 / 16), b64Char ((b1 % 16) * 4), '=']
  | [b0] => [b64Char (b0 / 4), b64Char ((b0 % 4) * 16), '=', '=']
  | [] => []

/-- `buffer.toString("base64")`. -/
def b64encode (l : List Nat) : String := String.mk (b64encodeChars l)

/-- `decodeEncodingAESKey` (part_008 lines 3-12): trim, reject the empty
key, pad with a trailing `=` when absent, base64-decode, and require
exactly 32 bytes (`none` models the two thrown errors). -/
def decodeEncodingAESKey (encodingAESKey : String) : Option (List Nat) :=
  let trimmed := JsStr.trimJS encodingAESKey
  if trimmed = "" then none
  else
    let withPadding := if JsStr.endsWithJS trimmed "=" then trimmed else trimmed ++ "="
    let key := b64decode withPadding
    if key.length = 32 then some key else none

/-- `WECOM_PKCS7_BLOCK_SIZE = 32` (line 14). -/
def WECOM_PKCS7_BLOCK_SIZE : Nat := 32

/-- `pkcs7Pad` (lines 16-20). -/
def pkcs7Pad (buf : List Nat) (blockSize : Nat) : List Nat :=
  let m := buf.length % blockSize
  let pad := if m = 0 then blockSize else blockSize - m
  buf ++ List.replicate pad pad

/-- `pkcs7Unpad` (lines 22-34); `none` models the thrown padding errors. -/
def pkcs7Unpad (buf : List Nat) (blockSize : Nat) : Option (List Nat) :=
  match buf.getLast? with
  | none => none
  | some pad =>
    if pad = 0 || blockSize < pad || buf.length < pad then none
    else if (buf.drop (buf.length - pad)).all (· = pad) then some (buf.take (buf.length - pad))
    else none

/-- An AES-256 instance for one key: the forward and inverse block
transformations on 16-byte blocks. -/
structure BlockCipher where
  enc : List Nat → List Nat
  dec : List Nat → List Nat

/-- Bytewise xor. -/
def xorBytes (a b : List Nat) : List Nat := List.zipWith (fun x y => x ^^^ y) a b

/-- CBC encryption over 16-byte blocks (what `cipher.update`/`final` do
with `setAutoPadding(false)`); fuel = input length. -/
def cbcEncrypt (E : List Nat → List Nat) : Nat → List Nat → List Nat → List Nat
  | 0, _, _ => []
  | _ + 1, _, [] => []
  | fuel + 1, prev, c :: cs =>
    E (xorBytes ((c :: cs).take 16) prev) ++
      cbcEncrypt E fuel (E (xorBytes ((c :: cs).take 16) prev)) ((c :: cs).drop 16)

/-- CBC decryption over 16-byte blocks; fuel = input length. -/
def cbcDecrypt (D : List Nat → List Nat) : Nat → List Nat → List Nat → List Nat
  | 0, _, _ => []
  | _ + 1, _, [] => []
  | fuel + 1, prev, c :: cs =>
    xorBytes (D ((c :: cs).take 16)) prev ++
      cbcDecrypt D fuel ((c :: cs).take 16) ((c :: cs).drop 16)

/-- `Buffer.writeUInt32BE`. -/
def u32be (n : Nat) : List Nat :=
  [n / 16777216 % 256, n / 65536 % 256, n / 256 % 256, n % 256]

/-- `Buffer.readUInt32BE` on the first four bytes. -/
def readU32BE (b : List Nat) : Nat :=
  b.getD 0 0 * 16777216 + b.getD 1 0 * 65536 + b.getD 2 0 * 256 + b.getD 3 0

/-- `encryptWecomPlaintext` (part_008 lines 107-126).  `C` interprets the
decoded AES key as a block cipher, `random16` is the buffer returned by
`crypto.randomBytes(16)`, and `receiveId`/`plaintext` are the UTF-8 bytes
of the corresponding strings.  `none` models the thrown errors (bad key,
or `writeUInt32BE` out of range). -/
def encryptWecomPlaintext (C : List Nat → BlockCipher) (encodingAESKey : String)
    (receiveId random16 plaintext : List Nat) : Option String :=
  match decodeEncodingAESKey encodingAESKey with
  | none => none
  | some aesKey =>
    if plaintext.length < 4294967296 then
      let iv := aesKey.take 16
      let raw := random16 ++ u32be plaintext.length ++ plaintext ++ receiveId
      let padded := pkcs7Pad raw WECOM_PKCS7_BLOCK_SIZE
      some (b64encode (cbcEncrypt (C aesKey).enc padded.length iv padded))
    else none

/-- `decryptWecomEncrypted` (part_008 lines 68-105): base64-decode, CBC
decrypt (`decipher.final()` rejects input that is not a whole number of
blocks), strip PKCS#7 padding, check the 20-byte minimum, read the
big-endian length at offset 16, slice the message at offset 20, and check
the trailing `receiveId` when one is configured. -/
def decryptWecomEncrypted (C : List Nat → BlockCipher) (encodingAESKey : String)
    (receiveId : List Nat) (encrypt : String) : Option (List Nat) :=
  match decodeEncodingAESKey encodingAESKey with
  | none => none
  | some aesKey =>
    let iv := aesKey.take 16
    let ctxt := b64decode encrypt
    if ctxt.length % 16 = 0 then
      match pkcs7Unpad (cbcDecrypt (C aesKey).dec ctxt.length iv ctxt) WECOM_PKCS7_BLOCK_SIZE with
      | none => none
      | some decrypted =>
        if decrypted.length < 20 then none
        else
          let msgLen := readU32BE ((decrypted.drop 16).take 4)
          let msgEnd := 20 + msgLen
          if decrypted.length < msgEnd then none
          else
            let msg := (decrypted.drop 20).take msgLen
            if receiveId ≠ [] then
              if decrypted.drop msgEnd = receiveId then some msg else none
            else some msg
    else none

/-- The identity block cipher, the simplest instance of the abstract AES
interface (used to instantiate the round-trip theorem concretely). -/
def idCipher : List Nat → BlockCipher := fun _ => ⟨id, id⟩

end WecomCrypto

/-! # Theorems -/

/-! ## C4 -/

namespace WecomAppMedia

/-- If the running total never exceeds the cap, the loop saves the whole
body. -/
theorem streamLoop_saved (maxBytes : Nat) :
    ∀ (chunks : List (List Nat)) (totalSize : Nat) (acc : List Nat),
      totalSize + (chunks.map List.length).sum ≤ maxBytes →
      streamLoop maxBytes chunks totalSize acc = .saved (acc ++ chunks.flatten) := by
  intro chunks
  induction chunks with
  | nil => intro totalSize acc _; simp [streamLoop]
  | cons c rest ih =>
    intro totalSize acc h
    simp only [List.map_cons, List.sum_cons] at h
    have step : streamLoop maxBytes (c :: rest) totalSize acc =
        streamLoop maxBytes rest (totalSize + c.length) (acc ++ c) := by
      simp only [streamLoop]
      rw [if_neg]
      rintro ⟨-, hlt⟩
      omega
    rw [step, ih (totalSize + c.length) (acc ++ c) (by omega)]
    simp

/-- If the body exceeds the cap, the loop aborts with a size-limit error
whose reported size exceeds the cap. -/
theorem streamLoop_limit (maxBytes : Nat) (hpos : 0 < maxBytes) :
    ∀ (chunks : List (List Nat)) (totalSize : Nat) (acc : List Nat),
      totalSize ≤ maxBytes →
      maxBytes < totalSize + (chunks.map List.length).sum →
      ∃ a, streamLoop maxBytes chunks totalSize acc = .sizeLimit a maxBytes ∧ maxBytes < a := by
  intro chunks
  induction chunks with
  | nil => intro totalSize acc hle h; simp at h; omega
  | cons c rest ih =>
    intro totalSize acc hle h
    simp only [List.map_cons, List.sum_cons] at h
    by_cases hc : maxBytes < totalSize + c.length
    · refine ⟨totalSize + c.length, ?_, hc⟩
      simp only [streamLoop]
      rw [if_pos ⟨hpos, hc⟩]
    · obtain ⟨a, ha, hlt⟩ := ih (totalSize + c.length) (acc ++ c) (by omega) (by omega)
      refine ⟨a, ?_, hlt⟩
      simp only [streamLoop]
      rw [if_neg]
      · exact ha
      · rintro ⟨-, hlt2⟩
        omega

/-- C4: `downloadWecomMediaToFile` enforces the `maxBytes` cap on both
paths (for a positive cap, which every call site passes via
`resolveInboundMediaMaxBytes`): a declared `Content-Length` above the cap
aborts with a size-limit error independently of the body; otherwise the
streamed byte count decides — a body of total size `≤ maxBytes` (in
particular exactly `maxBytes`) is saved whole, and a body whose total
exceeds `maxBytes` (in particular `maxBytes + 1`) aborts with a size-limit
error as soon as the running count crosses the cap. -/
theorem c4_download_size_cap (maxBytes : Nat) (hpos : 0 < maxBytes) :
    (∀ (n : Nat) (chunks : List (List Nat)), maxBytes < n →
      downloadWecomMediaToFile maxBytes (some n) chunks = .sizeLimit n maxBytes) ∧
    (∀ (contentLength : Option Nat) (chunks : List (List Nat)),
      (∀ n ∈ contentLength, n ≤ maxBytes) →
      (((chunks.map List.length).sum ≤ maxBytes →
        downloadWecomMediaToFile maxBytes contentLength chunks = .saved chunks.flatten) ∧
      (maxBytes < (chunks.map List.length).sum →
        ∃ a, downloadWecomMediaToFile maxBytes contentLength chunks = .sizeLimit a maxBytes ∧
          maxBytes < a))) := by
  constructor
  · intro n chunks hn
    simp only [downloadWecomMediaToFile]
    rw [if_pos ⟨hpos, hn⟩]
  · intro contentLength chunks hcl
    have hbody : downloadWecomMediaToFile maxBytes contentLength chunks =
        streamLoop maxBytes chunks 0 [] := by
      match contentLength with
      | none => rfl
      | some n =>
        have := hcl n rfl
        simp only [downloadWecomMediaToFile]
        rw [if_neg]
        rintro ⟨-, hlt⟩
        omega
    constructor
    · intro hle
      rw [hbody, streamLoop_saved maxBytes chunks 0 [] (by omega)]
      simp
    · intro hgt
      rw [hbody]
      exact streamLoop_limit maxBytes hpos chunks 0 [] (by omega) (by omega)

/-- Witness for C4 at `maxBytes = 2`: an oversized Content-Length is
rejected without the body mattering, a 2-byte body is saved, and a 3-byte
body is rejected. -/
theorem c4_download_size_cap_witness :
    downloadWecomMediaToFile 2 (some 5) [[9]] = .sizeLimit 5 2 ∧
    downloadWecomMediaToFile 2 none [[1], [2]] = .saved [1, 2] ∧
    ∃ a, downloadWecomMediaToFile 2 none [[1], [2], [3]] = .sizeLimit a 2 ∧ 2 < a := by
  have h := c4_download_size_cap 2 (by decide)
  refine ⟨h.1 5 [[9]] (by decide), ?_, ?_⟩
  · have := (h.2 none [[1], [2]] (by simp)).1 (by decide)
    simpa using this
  · exact (h.2 none [[1], [2], [3]] (by simp)).2 (by decide)

end WecomAppMedia

/-! ## C8 -/

namespace WecomAppCfg

/-- C8 counterexample: an `accountId` that does not appear under
`channels.wecom-app.accounts` does **not** resolve to a disabled stub —
with the channel itself not disabled, the unknown account `"ghost"`
resolves with `enabled = true` (it inherits the merged top-level
config). -/
theorem c8_counterexample :
    (resolveWecomAppAccount
      ⟨some ⟨emptyAccount, none, some [("known", emptyAccount)], none⟩⟩
      (some "ghost") emptyEnv).enabled = true := by decide

/-- C8 amended: an unknown account id resolves to the merged *top-level*
configuration, not to a disabled stub.  Its `config` is exactly the
channel's base config, and its `enabled` flag is the conjunction of
`channels.wecom-app.enabled !== false` and `base.enabled !== false` —
true by default. -/
theorem c8_unknown_account_inherits_base (cfg : PluginConfig)
    (accountIdArg : Option String) (env : EnvVars)
    (h : resolveAccountConfig cfg (normalizeAccountId accountIdArg) = none) :
    (resolveWecomAppAccount cfg accountIdArg env).config =
      (match cfg.wecomApp with
        | none => emptyAccount
        | some ch => ch.base) ∧
    (resolveWecomAppAccount cfg accountIdArg env).enabled =
      ((match cfg.wecomApp with
        | none => true
        | some ch => decide (ch.channelEnabled ≠ some false)) &&
        decide ((match cfg.wecomApp with
          | none => emptyAccount
          | some ch => ch.base).enabled ≠ some false)) := by
  have hmerge : mergeWecomAppAccountConfig cfg (normalizeAccountId accountIdArg) =
      (match cfg.wecomApp with
        | none => emptyAccount
        | some ch => ch.base) := by
    unfold mergeWecomAppAccountConfig
    rw [h]
    cases hc : cfg.wecomApp with
    | none => rfl
    | some ch => cases ch.base; rfl
  constructor
  · show (resolveWecomAppAccount cfg accountIdArg env).config = _
    unfold resolveWecomAppAccount
    simp only [hmerge]
  · unfold resolveWecomAppAccount
    simp only [hmerge]

/-- Witness for the amended C8 theorem at a concrete config. -/
theorem c8_unknown_account_inherits_base_witness :
    (resolveWecomAppAccount
      ⟨some ⟨emptyAccount, none, some [("known", emptyAccount)], none⟩⟩
      (some "ghost") emptyEnv).config = emptyAccount ∧
    (resolveWecomAppAccount
      ⟨some ⟨emptyAccount, none, some [("known", emptyAccount)], none⟩⟩
      (some "ghost") emptyEnv).enabled = true := by
  have h := c8_unknown_account_inherits_base
    ⟨some ⟨emptyAccount, none, some [("known", emptyAccount)], none⟩⟩
    (some "ghost") emptyEnv (by decide)
  exact ⟨h.1, h.2⟩

end WecomAppCfg

/-! ## C10 -/

namespace MediaParser

/-- The collected items, image-then-file, with the new item placed in its
category, are a permutation of the new item consed onto the old items. -/
theorem addMedia_perm_image (st : ExtractState) (media : ExtractedMedia) :
    List.Perm ((st.images ++ [media]) ++ st.files) (media :: (st.images ++ st.files)) := by
  rw [List.append_assoc]
  exact List.perm_middle

theorem addMedia_perm_file (st : ExtractState) (media : ExtractedMedia) :
    List.Perm (st.images ++ (st.files ++ [media])) (media :: (st.images ++ st.files)) := by
  have h1 : List.Perm (st.images ++ (st.files ++ [media])) (st.images ++ (media :: st.files)) :=
    List.Perm.append_left _ (List.perm_append_singleton _ _)
  exact h1.trans List.perm_middle

/-- `addMedia` preserves the invariant: the keys of the collected items are
pairwise distinct and all recorded in `seenSources`. -/
theorem addMedia_inv (checkExists : Bool) (existsFn : String → Bool)
    (st : ExtractState) (media : ExtractedMedia)
    (hsub : ∀ k ∈ (st.images ++ st.files).map mediaKey, k ∈ st.seenSources)
    (hnd : ((st.images ++ st.files).map mediaKey).Nodup) :
    (∀ k ∈ (((addMedia checkExists existsFn st media).1.images ++
        (addMedia checkExists existsFn st media).1.files).map mediaKey),
      k ∈ (addMedia checkExists existsFn st media).1.seenSources) ∧
    ((((addMedia checkExists existsFn st media).1.images ++
        (addMedia checkExists existsFn st media).1.files)).map mediaKey).Nodup := by
  unfold addMedia
  by_cases hseen : mediaKey media ∈ st.seenSources
  · simp only [hseen, if_true]
    exact ⟨hsub, hnd⟩
  · simp only [hseen, if_false]
    by_cases hex : (checkExists && media.isLocal && WecomAppCfg.optStrTruthy media.localPath
        && !existsFn (media.localPath.getD "")) = true
    · simp only [hex, if_true]
      exact ⟨hsub, hnd⟩
    · simp only [hex, if_false, Bool.false_eq_true]
      have hcons : ((media :: (st.images ++ st.files)).map mediaKey).Nodup := by
        refine List.nodup_cons.mpr ⟨?_, hnd⟩
        intro hmem
        exact hseen (hsub _ hmem)
      by_cases himg : media.kind = MediaKind.image
      · simp only [himg, if_true]
        have hperm := (addMedia_perm_image st media).map mediaKey
        refine ⟨?_, hperm.symm.nodup hcons⟩
        intro k hk
        have := (hperm.mem_iff).mp hk
        simp only [List.map_cons, List.mem_cons] at this
        rcases this with h | h
        · subst h; exact List.mem_cons_self _ _
        · exact List.mem_cons_of_mem _ (hsub _ h)
      · simp only [himg, if_false]
        have hperm := (addMedia_perm_file st media).map mediaKey
        refine ⟨?_, hperm.symm.nodup hcons⟩
        intro k hk
        have := (hperm.mem_iff).mp hk
        simp only [List.map_cons, List.mem_cons] at this
        rcases this with h | h
        · exact h ▸ List.mem_cons_self _ _
        · exact List.mem_cons_of_mem _ (hsub _ h)

/-- The fold preserves the invariant. -/
theorem extractFold_inv (checkExists : Bool) (existsFn : String → Bool) :
    ∀ (candidates : List ExtractedMedia) (st : ExtractState),
      (∀ k ∈ (st.images ++ st.files).map mediaKey, k ∈ st.seenSources) →
      ((st.images ++ st.files).map mediaKey).Nodup →
      (((extractFold checkExists existsFn st candidates).images ++
        (extractFold checkExists existsFn st candidates).files).map mediaKey).Nodup := by
  intro candidates
  induction candidates with
  | nil => intro st _ hnd; exact hnd
  | cons m ms ih =>
    intro st hsub hnd
    have h := addMedia_inv checkExists existsFn st m hsub hnd
    exact ih _ h.1 h.2

/-- C10: `extractMediaFromText` deduplicates across all five extraction
phases and both result categories — the deduplication keys
(`localPath || source`) of the returned items are pairwise distinct, so a
path or URL that occurs in several syntaxes in the text is reported at
most once across images and files — and the returned `all` list is exactly
`images ++ files`. -/
theorem c10_extract_media_dedup (checkExists : Bool) (existsFn : String → Bool)
    (candidates : List ExtractedMedia) :
    ((extractMediaFromText checkExists existsFn candidates).all.map mediaKey).Nodup ∧
    (extractMediaFromText checkExists existsFn candidates).all =
      (extractMediaFromText checkExists existsFn candidates).images ++
      (extractMediaFromText checkExists existsFn candidates).files := by
  constructor
  · exact extractFold_inv checkExists existsFn candidates ⟨[], [], []⟩ (by simp) (by simp)
  · rfl

end MediaParser

/-! ## C3 -/

namespace WecomAppApi

/-- `Map.set` makes the key map to the new entry. -/
theorem lookup_cacheSet_self (key : String) (e : AccessTokenCacheEntry) :
    ∀ cache : TokenCache, (cacheSet key e cache).lookup key = some e := by
  intro cache
  induction cache with
  | nil => simp [cacheSet, List.lookup]
  | cons kv rest ih =>
    obtain ⟨k, v⟩ := kv
    by_cases h : k = key
    · simp [cacheSet, h, List.lookup]
    · simp only [cacheSet, h, if_false]
      rw [List.lookup]
      have hbeq : (key == k) = false := by
        simp [Ne.symm h]
      rw [hbeq]
      exact ih

/-- `Map.set` preserves the expiry invariant when the new entry satisfies
it. -/
theorem cacheSet_wf (key : String) (e : AccessTokenCacheEntry) (now : Nat)
    (he : e.expiresAt ≤ now + ACCESS_TOKEN_TTL_MS) :
    ∀ cache : TokenCache, CacheWellFormed cache now →
      CacheWellFormed (cacheSet key e cache) now := by
  intro cache
  induction cache with
  | nil =>
    intro _ kv hkv
    simp only [cacheSet, List.mem_singleton] at hkv
    simp [hkv, he]
  | cons hd rest ih =>
    intro hwf kv hkv
    obtain ⟨k, v⟩ := hd
    by_cases h : k = key
    · simp only [cacheSet, h, if_true] at hkv
      rcases List.mem_cons.mp hkv with h1 | h1
      · simp [h1, he]
      · exact hwf kv (List.mem_cons_of_mem _ h1)
    · simp only [cacheSet, h, if_false] at hkv
      rcases List.mem_cons.mp hkv with h1 | h1
      · exact hwf kv (h1 ▸ List.mem_cons_self _ _)
      · exact ih (fun x hx => hwf x (List.mem_cons_of_mem _ hx)) kv h1

/-- A successful lookup is a membership. -/
theorem lookup_mem (key : String) :
    ∀ (cache : TokenCache) (e : AccessTokenCacheEntry),
      cache.lookup key = some e → (key, e) ∈ cache := by
  intro cache
  induction cache with
  | nil => intro e h; simp [List.lookup] at h
  | cons hd rest ih =>
    intro e h
    obtain ⟨k, v⟩ := hd
    rw [List.lookup] at h
    cases hbeq : (key == k) with
    | true =>
      rw [hbeq] at h
      simp only [Option.some.injEq] at h
      have hkey : key = k := by simpa using hbeq
      simp [hkey, h]
    | false =>
      rw [hbeq] at h
      exact List.mem_cons_of_mem _ (ih e h)

/-- C3: every token `getAccessToken` returns is backed, in the resulting
cache, by an entry with `now < expiresAt` and
`expiresAt ≤ now + (7200 s − 5 min)`.  A cached entry is returned only
while `now < expiresAt` (an expired entry is never returned), a freshly
fetched token is stored with `expiresAt = now + ACCESS_TOKEN_TTL_MS`
exactly, and the expiry invariant of the cache is preserved. -/
theorem c3_token_cache_expiry (account : ApiAccount) (cache : TokenCache) (now : Nat)
    (fetched : Option String) (tok : String) (cache1 : TokenCache)
    (hwf : CacheWellFormed cache now)
    (h : getAccessToken account cache now fetched = some (tok, cache1)) :
    (∃ e : AccessTokenCacheEntry,
      cache1.lookup (cacheKey (account.corpId.getD "") account.agentId) = some e ∧
      e.token = tok ∧ now < e.expiresAt ∧ e.expiresAt ≤ now + ACCESS_TOKEN_TTL_MS) ∧
    CacheWellFormed cache1 now ∧
    ((∃ e : AccessTokenCacheEntry,
        cache.lookup (cacheKey (account.corpId.getD "") account.agentId) = some e ∧
        now < e.expiresAt ∧ tok = e.token ∧ cache1 = cache) ∨
      cache1 = cacheSet (cacheKey (account.corpId.getD "") account.agentId)
        ⟨tok, now + ACCESS_TOKEN_TTL_MS⟩ cache) := by
  set key := cacheKey (account.corpId.getD "") account.agentId with hkeydef
  unfold getAccessToken at h
  rw [← hkeydef] at h
  cases hcred : (WecomAppCfg.optStrTruthy account.corpId &&
      WecomAppCfg.optStrTruthy account.corpSecret) with
  | false =>
    rw [if_pos (by rw [hcred]; rfl)] at h
    exact Option.noConfusion h
  | true =>
  rw [if_neg (by rw [hcred]; simp)] at h
  cases hlook : cache.lookup key with
  | some cached =>
    simp only [hlook] at h
    by_cases hfresh : now < cached.expiresAt
    · simp only [if_pos hfresh] at h
      simp only [Option.some.injEq, Prod.mk.injEq] at h
      obtain ⟨htok, hcache⟩ := h
      refine ⟨⟨cached, ?_, htok, hfresh, ?_⟩, ?_,
        Or.inl ⟨cached, rfl, hfresh, htok.symm, hcache.symm⟩⟩
      · rw [← hcache]; exact hlook
      · exact hwf (key, cached) (lookup_mem key cache cached hlook)
      · rw [← hcache]; exact hwf
    · simp only [if_neg hfresh] at h
      cases hf : fetched with
      | none => simp [hf] at h
      | some ftok =>
        simp only [hf] at h
        by_cases hempty : ftok = ""
        · rw [if_pos hempty] at h; exact Option.noConfusion h
        · rw [if_neg hempty] at h
          simp only [Option.some.injEq, Prod.mk.injEq] at h
          obtain ⟨htok, hcache⟩ := h
          subst htok
          refine ⟨⟨⟨ftok, now + ACCESS_TOKEN_TTL_MS⟩, ?_, rfl,
            by show now < now + ACCESS_TOKEN_TTL_MS; unfold ACCESS_TOKEN_TTL_MS; omega, le_refl _⟩, ?_, Or.inr hcache.symm⟩
          · rw [← hcache]; exact lookup_cacheSet_self key _ cache
          · rw [← hcache]; exact cacheSet_wf key _ now (le_refl _) cache hwf
  | none =>
    simp only [hlook] at h
    cases hf : fetched with
    | none => simp [hf] at h
    | some ftok =>
      simp only [hf] at h
      by_cases hempty : ftok = ""
      · rw [if_pos hempty] at h; exact Option.noConfusion h
      · rw [if_neg hempty] at h
        simp only [Option.some.injEq, Prod.mk.injEq] at h
        obtain ⟨htok, hcache⟩ := h
        subst htok
        refine ⟨⟨⟨ftok, now + ACCESS_TOKEN_TTL_MS⟩, ?_, rfl,
          by show now < now + ACCESS_TOKEN_TTL_MS; unfold ACCESS_TOKEN_TTL_MS; omega, le_refl _⟩, ?_, Or.inr hcache.symm⟩
        · rw [← hcache]; exact lookup_cacheSet_self key _ cache
        · rw [← hcache]; exact cacheSet_wf key _ now (le_refl _) cache hwf

/-- Witness for C3: a valid cached entry is returned unchanged, within its
expiry bounds. -/
theorem c3_token_cache_expiry_witness :
    (∃ e : AccessTokenCacheEntry,
      List.lookup (cacheKey "corp" (some 1)) [(cacheKey "corp" (some 1),
        (⟨"tok0", 1000⟩ : AccessTokenCacheEntry))] = some e ∧
      e.token = "tok0" ∧ 500 < e.expiresAt ∧ e.expiresAt ≤ 500 + ACCESS_TOKEN_TTL_MS) ∧
    CacheWellFormed [(cacheKey "corp" (some 1), ⟨"tok0", 1000⟩)] 500 ∧
    ((∃ e : AccessTokenCacheEntry,
        List.lookup (cacheKey "corp" (some 1)) [(cacheKey "corp" (some 1),
          (⟨"tok0", 1000⟩ : AccessTokenCacheEntry))] = some e ∧
        500 < e.expiresAt ∧ "tok0" = e.token ∧
        [(cacheKey "corp" (some 1), (⟨"tok0", 1000⟩ : AccessTokenCacheEntry))] =
          [(cacheKey "corp" (some 1), ⟨"tok0", 1000⟩)]) ∨
      [(cacheKey "corp" (some 1), (⟨"tok0", 1000⟩ : AccessTokenCacheEntry))] =
        cacheSet (cacheKey "corp" (some 1)) ⟨"tok0", 500 + ACCESS_TOKEN_TTL_MS⟩
          [(cacheKey "corp" (some 1), ⟨"tok0", 1000⟩)]) := by
  exact c3_token_cache_expiry ⟨some "corp", some "sec", some 1, true⟩
    [(cacheKey "corp" (some 1), ⟨"tok0", 1000⟩)] 500 none "tok0"
    [(cacheKey "corp" (some 1), ⟨"tok0", 1000⟩)] (by decide) (by decide)

end WecomAppApi

/-! ## C7 -/

namespace WecomAppPlugin

/-- C7 (code evaluated at the failing input): for a local `.wav` media URL
with `voiceTranscode.enabled` and ffmpeg present, `detectMediaType` yields
`file` (both with no MIME type and with `audio/wav`), so `sendMedia`
routes the send to `downloadAndSendFile` — the ffmpeg transcode-to-`.amr`
path is never reached for `.wav`, even though the same call with a local
`.mp3` does transcode, upload the `.amr` as voice, and remove the
temporary file.  The `ext === "wav"` test in `likelyUnsupported`
(part_005 line 1021) and the surrounding comments document the intended
wav behaviour, which `detectMediaType`'s wav-to-file mapping makes
unreachable. -/
theorem c7_wav_transcode_unreachable :
    detectMediaType "/tmp/a.wav" none = WAMediaType.file ∧
    detectMediaType "/tmp/a.wav" (some "audio/wav") = WAMediaType.file ∧
    sendMediaRoute "/tmp/a.wav" none none true true true "/tmp/out.amr"
      = [MediaAction.sendFile "/tmp/a.wav"] ∧
    sendMediaRoute "/tmp/a.mp3" none none true true true "/tmp/out.amr"
      = [MediaAction.transcodeToAmr "/tmp/a.mp3" "/tmp/out.amr",
         MediaAction.sendVoice "/tmp/out.amr",
         MediaAction.removeTempFile "/tmp/out.amr"] := by
  refine ⟨by decide, by decide, by decide, by decide⟩

end WecomAppPlugin

/-! ## C2 -/

namespace WecomCrypto

set_option maxRecDepth 4096 in
/-- C2 counterexample: the signature comparison is case-sensitive.  For
`token = "tok"`, `timestamp = "123"`, `nonce = "456"`,
`encrypt = "msg"`, the digest of the sorted concatenation is
`7d53e1d3b63ee09a1ce5684821b29cfa4ec560b1`; supplying the same digest in
uppercase hex is rejected by `verifyWecomSignature`, while the claim says
it must be accepted. -/
theorem c2_counterexample :
    computeWecomMsgSignature "tok" "123" "456" "msg" =
      "7d53e1d3b63ee09a1ce5684821b29cfa4ec560b1" ∧
    toUpperJS "7d53e1d3b63ee09a1ce5684821b29cfa4ec560b1" =
      "7D53E1D3B63EE09A1CE5684821B29CFA4EC560B1" ∧
    verifyWecomSignature "tok" "123" "456" "msg"
      "7D53E1D3B63EE09A1CE5684821B29CFA4EC560B1" = false ∧
    verifyWecomSignature "tok" "123" "456" "msg"
      "7d53e1d3b63ee09a1ce5684821b29cfa4ec560b1" = true := by
  refine ⟨by decide, by decide, by decide, by decide⟩

/-- C2 amended: WeCom-family webhook signature verification succeeds
exactly when the supplied signature equals — case-sensitively — the
lowercase SHA-1 hex digest of the concatenation of the lexicographically
sorted list `[token, timestamp, nonce, encrypt]`.  (The comparison is
`===`; an uppercase digest is rejected, as the counterexample shows.) -/
theorem c2_signature_check_amended (token timestamp nonce encrypt signature : String) :
    verifyWecomSignature token timestamp nonce encrypt signature = true ↔
      signature = sha1Hex (String.join (sortJS [token, timestamp, nonce, encrypt])) := by
  unfold verifyWecomSignature computeWecomMsgSignature
  rw [beq_iff_eq]
  exact eq_comm

end WecomCrypto

/-! ## C6 -/

namespace WecomAppApi

/-- C6 counterexample: on a token-expired platform error (errcode 40014),
`sendWecomAppMessage` does **not** evict the cached token and does not
retry.  With a valid cached token and a `message/send` response of
`errcode = 40014`, the call returns `ok = false` with that errcode after
exactly one `message/send` POST, and the cache still holds the same
entry. -/
theorem c6_counterexample :
    sendWecomAppMessage ⟨some "corp", some "sec", some 1, true⟩ (some "alice") "hello"
      [("corp:1", ⟨"tok0", 1000⟩)] 500 none
      ⟨some 40014, some "access_token expired", none, none, none, none⟩ =
    (some ⟨false, some 40014, some "access_token expired", none, none, none, none⟩,
      [("corp:1", ⟨"tok0", 1000⟩)], [⟨some "alice", "hello"⟩]) := by
  decide

/-- C6 amended: when the `message/send` response carries any non-zero
error code (the 40014 token-expired code included), `sendWecomAppMessage`
returns `ok = false` with that code after exactly one `message/send` POST
(carrying the markdown-stripped text), leaves the token cache exactly as
`getAccessToken` left it — no entry is evicted — and performs no retry;
`clearAccessTokenCache` exists but is never called on this path. -/
theorem c6_no_evict_no_retry (account : ApiAccount) (targetUserId : Option String)
    (message : String) (cache : TokenCache) (now : Nat) (gettokenResult : Option String)
    (resp : SendResponse) (code : Int) (tok : String) (cache1 : TokenCache)
    (hacct : account.canSendActive = true)
    (hget : getAccessToken account cache now gettokenResult = some (tok, cache1))
    (hcode : resp.errcode = some code) (hnz : code ≠ 0) :
    sendWecomAppMessage account targetUserId message cache now gettokenResult resp =
      (some ⟨false, some code, resp.errmsg, resp.invaliduser, resp.invalidparty,
        resp.invalidtag, resp.msgid⟩,
        cache1, [⟨targetUserId, StripMd.stripMarkdown message⟩]) := by
  unfold sendWecomAppMessage
  rw [hacct]
  simp only [Bool.not_true, Bool.false_eq_true, if_false, hget, hcode]
  have : (some code == some (0 : Int)) = false := by
    simp [hnz]
  rw [this]

/-- Witness for the amended C6 theorem at the counterexample's input. -/
theorem c6_no_evict_no_retry_witness :
    sendWecomAppMessage ⟨some "corp", some "sec", some 1, true⟩ (some "alice") "hello"
      [("corp:1", ⟨"tok0", 1000⟩)] 500 none
      ⟨some 40014, some "access_token expired", none, none, none, none⟩ =
    (some ⟨false, some 40014, some "access_token expired", none, none, none, none⟩,
      [("corp:1", ⟨"tok0", 1000⟩)], [⟨some "alice", StripMd.stripMarkdown "hello"⟩]) := by
  exact c6_no_evict_no_retry ⟨some "corp", some "sec", some 1, true⟩ (some "alice") "hello"
    [("corp:1", ⟨"tok0", 1000⟩)] 500 none
    ⟨some 40014, some "access_token expired", none, none, none, none⟩ 40014 "tok0"
    [("corp:1", ⟨"tok0", 1000⟩)] (by decide) (by decide) (by decide) (by decide)

end WecomAppApi

/-! ## C5 -/

namespace DingtalkCard

/-- When both PUTs succeed, `streamAICard` returns normally. -/
theorem streamAICard_ok_of_puts (card : AICardInstance) (guid content : String)
    (finished : Bool) :
    (streamAICard card guid content finished true true).2.1 = true := by
  unfold streamAICard
  by_cases h : card.inputingStarted <;> simp [h]

/-- `streamAICard` always issues at least one request. -/
theorem streamAICard_trace_ne_nil (card : AICardInstance) (guid content : String)
    (finished sOk stOk : Bool) :
    (streamAICard card guid content finished sOk stOk).1 ≠ [] := by
  unfold streamAICard
  by_cases h : card.inputingStarted <;> by_cases h2 : sOk <;> simp [h, h2]

/-- Every request one `deliver` invocation issues is either the INPUTING
status PUT or the streaming PUT with this call's fresh guid,
`key = "msgContent"`, `isFull = true`, `isFinalize = false`, and the
accumulated content. -/
theorem deliverStep_payload (ctx : StreamCtx) (e : DeliverEvent) (req : CardReq)
    (h : req ∈ (deliverStep ctx e).2) :
    req = CardReq.statusPut ctx.card.cardInstanceId INPUTING ∨
    req = CardReq.streamPut ctx.card.cardInstanceId e.guid "msgContent"
      (ctx.accumulated ++ e.text) true false false := by
  unfold deliverStep at h
  by_cases hblank : JsStr.trimJS e.text = ""
  · rw [if_pos hblank] at h
    simp at h
  · rw [if_neg hblank] at h
    by_cases hthr : updateInterval ≤ e.now - ctx.lastUpdateTime
    · rw [if_pos hthr] at h
      have hmem : req ∈ (streamAICard ctx.card e.guid (ctx.accumulated ++ e.text) false
          e.statusPutOk e.streamPutOk).1 := by
        by_cases hok : (streamAICard ctx.card e.guid (ctx.accumulated ++ e.text) false
            e.statusPutOk e.streamPutOk).2.1 = true
        · rw [if_pos hok] at h; exact h
        · rw [if_neg hok] at h; exact h
      unfold streamAICard at hmem
      by_cases hc : ctx.card.inputingStarted
      · rw [if_pos hc] at hmem
        simp only [List.mem_singleton] at hmem
        exact Or.inr hmem
      · rw [if_neg hc] at hmem
        by_cases hs : e.statusPutOk = true
        · rw [if_pos hs] at hmem
          rcases List.mem_cons.mp hmem with h1 | h1
          · exact Or.inl h1
          · simp only [List.mem_singleton] at h1
            exact Or.inr h1
        · rw [if_neg hs] at hmem
          simp only [List.mem_singleton] at hmem
          exact Or.inl hmem
    · rw [if_neg hthr] at h
      simp at h

/-- A skipped invocation contributes no emission time. -/
theorem emissionTimes_cons_nil (t : Nat) (rest : List (Nat × List CardReq)) :
    emissionTimes ((t, []) :: rest) = emissionTimes rest := by
  simp [emissionTimes]

/-- An emitting invocation contributes its time. -/
theorem emissionTimes_cons_ne (t : Nat) (reqs : List CardReq)
    (rest : List (Nat × List CardReq)) (h : reqs ≠ []) :
    emissionTimes ((t, reqs) :: rest) = t :: emissionTimes rest := by
  simp [emissionTimes, h]

/-- The deliver loop throttles: with all PUTs succeeding, the times at
which stream updates are issued are separated by at least
`updateInterval` (300 ms), starting from the closure's `lastUpdateTime`. -/
theorem deliverRun_throttle : ∀ (events : List DeliverEvent) (ctx : StreamCtx),
    allPutsOk events = true →
    gapsAtLeast updateInterval
      (ctx.lastUpdateTime :: emissionTimes (deliverRun ctx events).2) = true := by
  intro events
  induction events with
  | nil => intro ctx _; rfl
  | cons e es ih =>
    intro ctx hok
    simp only [allPutsOk, Bool.and_eq_true] at hok
    obtain ⟨⟨hs, hst⟩, hok2⟩ := hok
    simp only [deliverRun]
    by_cases hblank : JsStr.trimJS e.text = ""
    · have hstep : deliverStep ctx e = (ctx, []) := by
        unfold deliverStep
        rw [if_pos hblank]
      rw [hstep, emissionTimes_cons_nil]
      exact ih ctx hok2
    · by_cases hthr : updateInterval ≤ e.now - ctx.lastUpdateTime
      · have hstep : deliverStep ctx e =
            (⟨ctx.accumulated ++ e.text, e.now,
              (streamAICard ctx.card e.guid (ctx.accumulated ++ e.text) false
                true true).2.2⟩,
              (streamAICard ctx.card e.guid (ctx.accumulated ++ e.text) false
                true true).1) := by
          unfold deliverStep
          rw [if_neg hblank, if_pos hthr, hs, hst,
            if_pos (streamAICard_ok_of_puts _ _ _ _)]
        rw [hstep, emissionTimes_cons_ne _ _ _
          (streamAICard_trace_ne_nil ctx.card e.guid (ctx.accumulated ++ e.text)
            false true true)]
        simp only [gapsAtLeast, Bool.and_eq_true, decide_eq_true_eq]
        refine ⟨?_, ?_⟩
        · unfold updateInterval at hthr ⊢
          omega
        · exact ih ⟨ctx.accumulated ++ e.text, e.now,
            (streamAICard ctx.card e.guid (ctx.accumulated ++ e.text) false
              true true).2.2⟩ hok2
      · have hstep : deliverStep ctx e =
            (⟨ctx.accumulated ++ e.text, ctx.lastUpdateTime, ctx.card⟩, []) := by
          unfold deliverStep
          rw [if_neg hblank, if_neg hthr]
        rw [hstep, emissionTimes_cons_nil]
        exact ih ⟨ctx.accumulated ++ e.text, ctx.lastUpdateTime, ctx.card⟩ hok2

/-- C5: (i) when the card has not yet entered INPUTING, `streamAICard`
issues the INPUTING status PUT before the streaming PUT, issues no
streaming PUT if the status PUT fails, and sets `inputingStarted` only
after the status PUT succeeded; once `inputingStarted` is set, no further
status PUT is issued.  (ii) Every streamed payload carries this call's
fresh guid, `isFull = true`, `isFinalize = false` for non-final updates,
and the accumulated content.  (iii) Successive stream updates in the
deliver loop are throttled to at least 300 ms apart. -/
theorem c5_card_streaming :
    (∀ (card : AICardInstance) (guid content : String) (finished sOk stOk : Bool),
      (card.inputingStarted = false → sOk = true →
        (streamAICard card guid content finished sOk stOk).1 =
          [CardReq.statusPut card.cardInstanceId INPUTING,
            CardReq.streamPut card.cardInstanceId guid "msgContent" content true finished false] ∧
        (streamAICard card guid content finished sOk stOk).2.2.inputingStarted = true) ∧
      (card.inputingStarted = false → sOk = false →
        (streamAICard card guid content finished sOk stOk).1 =
          [CardReq.statusPut card.cardInstanceId INPUTING] ∧
        (streamAICard card guid content finished sOk stOk).2.2.inputingStarted = false) ∧
      (card.inputingStarted = true →
        (streamAICard card guid content finished sOk stOk).1 =
          [CardReq.streamPut card.cardInstanceId guid "msgContent" content true finished false])) ∧
    (∀ (ctx : StreamCtx) (e : DeliverEvent) (req : CardReq),
      req ∈ (deliverStep ctx e).2 →
      req = CardReq.statusPut ctx.card.cardInstanceId INPUTING ∨
      req = CardReq.streamPut ctx.card.cardInstanceId e.guid "msgContent"
        (ctx.accumulated ++ e.text) true false false) ∧
    (∀ (events : List DeliverEvent) (ctx : StreamCtx),
      allPutsOk events = true →
      gapsAtLeast updateInterval
        (ctx.lastUpdateTime :: emissionTimes (deliverRun ctx events).2) = true) := by
  refine ⟨?_, deliverStep_payload, deliverRun_throttle⟩
  intro card guid content finished sOk stOk
  refine ⟨?_, ?_, ?_⟩
  · intro hc hs
    unfold streamAICard
    rw [if_neg (by rw [hc]; exact Bool.false_ne_true), if_pos hs]
    exact ⟨rfl, rfl⟩
  · intro hc hs
    unfold streamAICard
    rw [if_neg (by rw [hc]; exact Bool.false_ne_true), if_neg (by rw [hs]; exact Bool.false_ne_true)]
    exact ⟨rfl, hc⟩
  · intro hc
    unfold streamAICard
    rw [if_pos hc]

/-- Witness for C5 at concrete values: a fresh card issues the status PUT
then the stream PUT; a started card issues only the stream PUT; a
two-event run with times 1000 and 1100 issues only the first update. -/
theorem c5_card_streaming_witness :
    (streamAICard ⟨"card1", "tk", false⟩ "g1" "Hi" false true true).1 =
      [CardReq.statusPut "card1" INPUTING,
        CardReq.streamPut "card1" "g1" "msgContent" "Hi" true false false] ∧
    (streamAICard ⟨"card1", "tk", true⟩ "g2" "Hi, there" false true true).1 =
      [CardReq.streamPut "card1" "g2" "msgContent" "Hi, there" true false false] ∧
    gapsAtLeast updateInterval (0 :: emissionTimes (deliverRun ⟨"", 0, ⟨"card1", "tk", false⟩⟩
      [⟨"Hi", 1000, "g1", true, true⟩, ⟨", there", 1100, "g2", true, true⟩]).2) = true := by
  refine ⟨(((c5_card_streaming.1 ⟨"card1", "tk", false⟩ "g1" "Hi" false true true).1 rfl rfl)).1,
    (c5_card_streaming.1 ⟨"card1", "tk", true⟩ "g2" "Hi, there" false true true).2.2 rfl,
    c5_card_streaming.2.2
      [⟨"Hi", 1000, "g1", true, true⟩, ⟨", there", 1100, "g2", true, true⟩]
      ⟨"", 0, ⟨"card1", "tk", false⟩⟩ (by decide)⟩

end DingtalkCard

/-! ## C9 -/

namespace StripMd

set_option maxRecDepth 4096 in
/-- C9 counterexample: `stripMarkdown` is not idempotent.  On `"> # hi"`
the quote pass (step 11) strips the `"> "` prefix after the heading pass
(step 2) has already run, leaving `"# hi"`; a second application then
turns the now-exposed heading into `"【hi】"`. -/
theorem c9_counterexample :
    stripMarkdown "> # hi" = "# hi" ∧
    stripMarkdown (stripMarkdown "> # hi") = "【hi】" ∧
    stripMarkdown (stripMarkdown "> # hi") ≠ stripMarkdown "> # hi" := by
  refine ⟨by decide, by decide, by decide⟩

end StripMd

namespace StripMd

/-- Unpack one marker-free cons cell. -/
theorem markerFree_cons {c : Char} {cs : List Char} (h : markerFree (c :: cs) = true) :
    isMarker c = false ∧ markerFree cs = true := by
  unfold markerFree at h
  rcases Bool.and_eq_true .. |>.mp h with ⟨h1, h2⟩
  exact ⟨by simpa using h1, h2⟩

/-- The head of a marker-free list differs from every marker character. -/
theorem ne_of_not_marker {c d : Char} (h : isMarker c = false) (hd : isMarker d = true) :
    d ≠ c := by
  intro he
  rw [he] at hd
  rw [hd] at h
  exact Bool.noConfusion h

/-- A prefix test against a marker character fails on a marker-free
head. -/
theorem isPrefixB_marker_false {d : Char} (ds : List Char) {c : Char} (cs : List Char)
    (h : isMarker c = false) (hd : isMarker d = true) :
    JsStr.isPrefixB (d :: ds) (c :: cs) = false := by
  simp [JsStr.isPrefixB, ne_of_not_marker h hd]

/-- Pass 1 leaves marker-free text unchanged. -/
theorem codeBlockPass_id : ∀ (fuel : Nat) (l : List Char), markerFree l = true →
    codeBlockPass fuel l = l := by
  intro fuel
  induction fuel with
  | zero => intro l _; rfl
  | succ n ih =>
    intro l hm
    match l with
    | [] => rfl
    | c :: cs =>
      obtain ⟨h1, h2⟩ := markerFree_cons hm
      unfold codeBlockPass
      rw [if_neg (by rw [isPrefixB_marker_false _ _ h1 (by decide)]; exact Bool.false_ne_true)]
      rw [ih cs h2]

end StripMd

namespace StripMd

/-- A marker-free character differs from every marker character. -/
theorem ne_marker' {c d : Char} (h : isMarker c = false) (hd : isMarker d = true) :
    c ≠ d := by
  intro he
  rw [he, hd] at h
  exact Bool.noConfusion h

/-- A marker-free character is not a digit. -/
theorem not_marker_digit {c : Char} (h : isMarker c = false) : JsStr.isDigitB c = false := by
  cases hd : JsStr.isDigitB c with
  | false => rfl
  | true =>
    unfold isMarker at h
    rw [hd] at h
    simp at h

/-- Pass 2 leaves marker-free text unchanged. -/
theorem headingPass_id : ∀ (fuel : Nat) (atStart : Bool) (l : List Char),
    markerFree l = true → headingPass fuel atStart l = l := by
  intro fuel
  induction fuel with
  | zero => intro _ l _; rfl
  | succ n ih =>
    intro atStart l hm
    match l with
    | [] => rfl
    | c :: cs =>
      obtain ⟨h1, h2⟩ := markerFree_cons hm
      unfold headingPass
      rw [if_neg (by simp [ne_marker' h1 (show isMarker '#' = true by decide)])]
      rw [ih _ cs h2]

/-- The double-delimiter passes (bold, strike) leave marker-free text
unchanged. -/
theorem pairPass2_id (d : Char) (hd : isMarker d = true) :
    ∀ (fuel : Nat) (l : List Char), markerFree l = true → pairPass2 d fuel l = l := by
  intro fuel
  induction fuel with
  | zero => intro l _; rfl
  | succ n ih =>
    intro l hm
    match l with
    | [] => rfl
    | c :: cs =>
      obtain ⟨h1, h2⟩ := markerFree_cons hm
      unfold pairPass2
      rw [if_neg (by rw [isPrefixB_marker_false _ _ h1 hd]; exact Bool.noConfusion)]
      rw [ih cs h2]

/-- The single-delimiter pass (star italics) leaves marker-free text
unchanged. -/
theorem pairPass1_id (d : Char) (hd : isMarker d = true) :
    ∀ (fuel : Nat) (l : List Char), markerFree l = true → pairPass1 d fuel l = l := by
  intro fuel
  induction fuel with
  | zero => intro l _; rfl
  | succ n ih =>
    intro l hm
    match l with
    | [] => rfl
    | c :: cs =>
      obtain ⟨h1, h2⟩ := markerFree_cons hm
      unfold pairPass1
      rw [if_neg (by simp [ne_marker' h1 hd])]
      rw [ih cs h2]

/-- The lookaround-underscore pass leaves marker-free text unchanged. -/
theorem underscorePass_id : ∀ (fuel : Nat) (prev : Option Char) (l : List Char),
    markerFree l = true → underscorePass fuel prev l = l := by
  intro fuel
  induction fuel with
  | zero => intro _ l _; rfl
  | succ n ih =>
    intro prev l hm
    match l with
    | [] => rfl
    | c :: cs =>
      obtain ⟨h1, h2⟩ := markerFree_cons hm
      unfold underscorePass
      rw [if_neg (by simp [ne_marker' h1 (show isMarker '_' = true by decide)])]
      rw [ih _ cs h2]

/-- Pass 4 leaves marker-free text unchanged. -/
theorem listPass_id : ∀ (fuel : Nat) (atStart : Bool) (l : List Char),
    markerFree l = true → listPass fuel atStart l = l := by
  intro fuel
  induction fuel with
  | zero => intro _ l _; rfl
  | succ n ih =>
    intro atStart l hm
    match l with
    | [] => rfl
    | c :: cs =>
      obtain ⟨h1, h2⟩ := markerFree_cons hm
      unfold listPass
      rw [if_neg (by simp [ne_marker' h1 (show isMarker '-' = true by decide),
        ne_marker' h1 (show isMarker '*' = true by decide)])]
      rw [ih _ cs h2]

/-- Pass 5 leaves marker-free text unchanged. -/
theorem orderedPass_id : ∀ (fuel : Nat) (atStart : Bool) (l : List Char),
    markerFree l = true → orderedPass fuel atStart l = l := by
  intro fuel
  induction fuel with
  | zero => intro _ l _; rfl
  | succ n ih =>
    intro atStart l hm
    match l with
    | [] => rfl
    | c :: cs =>
      obtain ⟨h1, h2⟩ := markerFree_cons hm
      unfold orderedPass
      rw [if_neg (by simp [not_marker_digit h1])]
      rw [ih _ cs h2]

/-- Pass 6 leaves marker-free text unchanged. -/
theorem inlineCodePass_id : ∀ (fuel : Nat) (l : List Char),
    markerFree l = true → inlineCodePass fuel l = l := by
  intro fuel
  induction fuel with
  | zero => intro l _; rfl
  | succ n ih =>
    intro l hm
    match l with
    | [] => rfl
    | c :: cs =>
      obtain ⟨h1, h2⟩ := markerFree_cons hm
      unfold inlineCodePass
      rw [if_neg (by simp [ne_marker' h1 (show isMarker bt = true by decide)])]
      rw [ih cs h2]

/-- Pass 8 leaves marker-free text unchanged. -/
theorem linkPass_id : ∀ (fuel : Nat) (l : List Char),
    markerFree l = true → linkPass fuel l = l := by
  intro fuel
  induction fuel with
  | zero => intro l _; rfl
  | succ n ih =>
    intro l hm
    match l with
    | [] => rfl
    | c :: cs =>
      obtain ⟨h1, h2⟩ := markerFree_cons hm
      unfold linkPass
      rw [if_neg (ne_marker' h1 (show isMarker '[' = true by decide))]
      show c :: linkPass n cs = c :: cs
      rw [ih cs h2]

/-- Pass 9 leaves marker-free text unchanged: the character after `!` is
never `[`. -/
theorem imagePass_id : ∀ (fuel : Nat) (l : List Char),
    markerFree l = true → imagePass fuel l = l := by
  intro fuel
  induction fuel with
  | zero => intro l _; rfl
  | succ n ih =>
    intro l hm
    match l with
    | [] => rfl
    | c :: cs =>
      obtain ⟨h1, h2⟩ := markerFree_cons hm
      by_cases hc : c = '!'
      · match cs, h2 with
        | [], _ =>
          unfold imagePass
          rw [if_pos hc]
          show c :: imagePass n [] = [c]
          rw [ih [] rfl]
        | c2 :: cs2, h2 =>
          obtain ⟨h21, h22⟩ := markerFree_cons h2
          have hne : ¬ (c2 = '[') := ne_marker' h21 (show isMarker '[' = true by decide)
          unfold imagePass
          rw [if_pos hc]
          simp only [hne, if_false]
          show c :: imagePass n (c2 :: cs2) = c :: c2 :: cs2
          rw [ih (c2 :: cs2) h2]
      · unfold imagePass
        rw [if_neg hc]
        show c :: imagePass n cs = c :: cs
        rw [ih cs h2]

end StripMd

namespace StripMd

/-- Pass 10 leaves marker-free text unchanged. -/
theorem tablePass_id : ∀ (fuel : Nat) (l : List Char),
    markerFree l = true → tablePass fuel l = l := by
  intro fuel
  induction fuel with
  | zero => intro l _; rfl
  | succ n ih =>
    intro l hm
    match l with
    | [] => rfl
    | c :: cs =>
      obtain ⟨h1, h2⟩ := markerFree_cons hm
      unfold tablePass
      rw [if_neg (ne_marker' h1 (show isMarker '|' = true by decide))]
      rw [ih cs h2]

/-- Pass 11 leaves marker-free text unchanged. -/
theorem quotePass_id : ∀ (fuel : Nat) (atStart : Bool) (l : List Char),
    markerFree l = true → quotePass fuel atStart l = l := by
  intro fuel
  induction fuel with
  | zero => intro _ l _; rfl
  | succ n ih =>
    intro atStart l hm
    match l with
    | [] => rfl
    | c :: cs =>
      obtain ⟨h1, h2⟩ := markerFree_cons hm
      unfold quotePass
      rw [if_neg (by simp [ne_marker' h1 (show isMarker '>' = true by decide)])]
      rw [ih _ cs h2]

/-- Pass 12 leaves marker-free text unchanged. -/
theorem hrPass_id : ∀ (fuel : Nat) (atStart : Bool) (l : List Char),
    markerFree l = true → hrPass fuel atStart l = l := by
  intro fuel
  induction fuel with
  | zero => intro _ l _; rfl
  | succ n ih =>
    intro atStart l hm
    match l with
    | [] => rfl
    | c :: cs =>
      obtain ⟨h1, h2⟩ := markerFree_cons hm
      unfold hrPass
      rw [if_neg (by simp [ne_marker' h1 (show isMarker '-' = true by decide),
        ne_marker' h1 (show isMarker '*' = true by decide),
        ne_marker' h1 (show isMarker '_' = true by decide)])]
      rw [ih _ cs h2]

end StripMd

namespace StripMd

/-- Unfolding of the triple-newline test on a cons cell. -/
theorem hasTriple_cons (c : Char) (l : List Char) :
    hasTriple (c :: l) =
      ((('\n' = c : Bool) && JsStr.isPrefixB ['\n', '\n'] l) || hasTriple l) := rfl

/-- A list that does not start with a newline has no one-newline prefix. -/
theorem isPrefixB_one_false {l : List Char}
    (h : ∀ c, l.head? = some c → c ≠ '\n') :
    JsStr.isPrefixB ['\n'] l = false := by
  match l with
  | [] => rfl
  | c :: cs =>
    have hc := h c rfl
    show (('\n' = c : Bool) && JsStr.isPrefixB [] cs) = false
    simp [Ne.symm hc]

/-- A list that does not start with a newline has no two-newline prefix. -/
theorem isPrefixB_two_false {l : List Char}
    (h : ∀ c, l.head? = some c → c ≠ '\n') :
    JsStr.isPrefixB ['\n', '\n'] l = false := by
  match l with
  | [] => rfl
  | c :: cs =>
    have hc := h c rfl
    show (('\n' = c : Bool) && JsStr.isPrefixB ['\n'] cs) = false
    simp [Ne.symm hc]

/-- Dropping the matched prefix length is `dropWhile`. -/
theorem drop_takeWhile_eq (p : Char → Bool) : ∀ l : List Char,
    l.drop (l.takeWhile p).length = l.dropWhile p := by
  intro l
  induction l with
  | nil => rfl
  | cons c cs ih =>
    cases hp : p c with
    | true =>
      rw [List.takeWhile_cons, List.dropWhile_cons, hp]
      simpa using ih
    | false =>
      rw [List.takeWhile_cons, List.dropWhile_cons, hp]
      rfl

/-- The head surviving a `dropWhile` fails the predicate. -/
theorem head_dropWhile_false (p : Char → Bool) : ∀ (l : List Char) (c : Char),
    (l.dropWhile p).head? = some c → p c = false := by
  intro l
  induction l with
  | nil => intro c h; exact Option.noConfusion h
  | cons a as ih =>
    intro c h
    rw [List.dropWhile_cons] at h
    cases hp : p a with
    | true =>
      rw [hp] at h
      exact ih c (by simpa using h)
    | false =>
      rw [hp] at h
      simp only [Bool.false_eq_true, if_false, List.head?_cons] at h
      injection h with h
      rw [← h]
      exact hp

/-- The newline-merging pass never changes the first character. -/
theorem mergePass_head : ∀ (fuel : Nat) (l : List Char),
    (mergePass fuel l).head? = l.head? := by
  intro fuel l
  match fuel, l with
  | 0, l => rfl
  | _ + 1, [] => rfl
  | fuel + 1, c :: cs =>
    unfold mergePass
    by_cases hc : c = '\n'
    · rw [if_pos hc]
      by_cases h3 : 3 ≤ (((c :: cs).takeWhile (· = '\n')).length)
      · rw [if_pos h3, hc]; rfl
      · rw [if_neg h3]; rfl
    · rw [if_neg hc]; rfl

/-- The newline-merging pass maps the empty list to itself. -/
theorem mergePass_nil : ∀ fuel : Nat, mergePass fuel [] = [] := by
  intro fuel
  cases fuel <;> rfl

end StripMd

namespace StripMd

/-- Unfolding of the two-newline prefix test on a cons cell. -/
theorem isPrefixB_two_cons (c : Char) (l : List Char) :
    JsStr.isPrefixB ['\n', '\n'] (c :: l) =
      (('\n' = c : Bool) && JsStr.isPrefixB ['\n'] l) := rfl

/-- With enough fuel, the output of the newline-merging pass never
contains three consecutive newlines. -/
theorem mergePass_noTriple : ∀ (fuel : Nat) (l : List Char), l.length ≤ fuel →
    hasTriple (mergePass fuel l) = false := by
  intro fuel
  induction fuel with
  | zero =>
    intro l hl
    have h0 : l = [] := List.length_eq_zero.mp (Nat.le_zero.mp hl)
    subst h0
    rfl
  | succ n ih =>
    intro l hl
    match l with
    | [] => rfl
    | c :: cs =>
      have hcs : cs.length ≤ n := by
        have h' : cs.length + 1 ≤ n + 1 := by simpa using hl
        omega
      unfold mergePass
      by_cases hc : c = '\n'
      · rw [if_pos hc]
        by_cases h3 : 3 ≤ (((c :: cs).takeWhile (· = '\n')).length)
        · rw [if_pos h3]
          have hrw : (c :: cs).drop (((c :: cs).takeWhile (· = '\n')).length)
              = (c :: cs).dropWhile (· = '\n') := drop_takeWhile_eq _ _
          have hrlen : ((c :: cs).drop (((c :: cs).takeWhile (· = '\n')).length)).length ≤ n := by
            rw [List.length_drop]
            simp only [List.length_cons]
            omega
          have hx := ih _ hrlen
          have hh : ∀ d, (mergePass n ((c :: cs).drop
              (((c :: cs).takeWhile (· = '\n')).length))).head? = some d → d ≠ '\n' := by
            intro d hd
            rw [mergePass_head, hrw] at hd
            have hf := head_dropWhile_false _ _ _ hd
            simpa using hf
          rw [hasTriple_cons, hasTriple_cons, hx]
          rw [isPrefixB_two_cons, isPrefixB_one_false hh, isPrefixB_two_false hh]
          simp
        · rw [if_neg h3]
          subst hc
          rw [hasTriple_cons, ih cs hcs]
          match cs, hcs, h3 with
          | [], _, _ =>
            rw [mergePass_nil]
            rfl
          | d :: cs2, hcs, h3 =>
            by_cases hd : d = '\n'
            · subst hd
              have h3' : (cs2.takeWhile (· = '\n')).length = 0 := by
                rw [show (('\n' :: '\n' :: cs2).takeWhile (· = '\n'))
                    = '\n' :: '\n' :: (cs2.takeWhile (· = '\n')) from rfl] at h3
                simp only [List.length_cons] at h3
                omega
              have h2h : ∀ e, cs2.head? = some e → e ≠ '\n' := by
                intro e he hne
                match cs2, he, h3' with
                | f :: r, he, h3' =>
                  injection he with he
                  rw [List.takeWhile_cons] at h3'
                  rw [he, hne] at h3'
                  simp at h3'
              have hn1 : 1 ≤ n := le_trans (by simp) hcs
              obtain ⟨m, rfl⟩ : ∃ m, n = m + 1 := ⟨n - 1, by omega⟩
              have hXeq : mergePass (m + 1) ('\n' :: cs2) = '\n' :: mergePass m cs2 := by
                unfold mergePass
                rw [if_pos rfl]
                rw [if_neg (by
                  rw [show (('\n' :: cs2).takeWhile (· = '\n'))
                      = '\n' :: (cs2.takeWhile (· = '\n')) from rfl]
                  simp only [List.length_cons, h3']
                  omega)]
                rw [mergePass.eq_def]
              rw [hXeq, isPrefixB_two_cons]
              rw [isPrefixB_one_false (fun e he => h2h e (by
                rw [mergePass_head] at he; exact he))]
              simp
            · rw [isPrefixB_two_false (fun e he => by
                rw [mergePass_head] at he
                injection he with he
                rw [← he]
                exact hd)]
              simp
      · rw [if_neg hc]
        rw [hasTriple_cons, ih cs hcs]
        simp [Ne.symm hc]

end StripMd

namespace StripMd

/-- A leading-newline run of length two forces a two-newline prefix. -/
theorem takeWhile_two_newlines : ∀ l : List Char,
    2 ≤ (l.takeWhile (· = '\n')).length → JsStr.isPrefixB ['\n', '\n'] l = true := by
  intro l h
  match l with
  | [] => simp [List.takeWhile_nil] at h
  | c :: cs =>
    by_cases hc : c = '\n'
    · subst hc
      rw [show (('\n' :: cs).takeWhile (· = '\n')) = '\n' :: cs.takeWhile (· = '\n') from rfl,
        List.length_cons] at h
      match cs with
      | [] => simp at h
      | d :: ds =>
        by_cases hd : d = '\n'
        · subst hd
          rfl
        · rw [show ((d :: ds).takeWhile (· = '\n')) = [] from by
            rw [List.takeWhile_cons]; simp [hd]] at h
          simp at h
    · rw [show ((c :: cs).takeWhile (· = '\n')) = [] from by
        rw [List.takeWhile_cons]; simp [hc]] at h
      simp at h

/-- The newline-merging pass is the identity on inputs without a triple
newline. -/
theorem mergePass_id_of_noTriple : ∀ (fuel : Nat) (l : List Char),
    hasTriple l = false → mergePass fuel l = l := by
  intro fuel
  induction fuel with
  | zero => intro l _; rfl
  | succ n ih =>
    intro l hT
    match l with
    | [] => rfl
    | c :: cs =>
      rw [hasTriple_cons] at hT
      obtain ⟨h1, h2⟩ := Bool.or_eq_false_iff.mp hT
      unfold mergePass
      by_cases hc : c = '\n'
      · rw [if_pos hc]
        subst hc
        have hpre : JsStr.isPrefixB ['\n', '\n'] cs = false := by simpa using h1
        rw [if_neg (by
          intro hge
          rw [show (('\n' :: cs).takeWhile (· = '\n')) = '\n' :: cs.takeWhile (· = '\n') from rfl,
            List.length_cons] at hge
          have htw := takeWhile_two_newlines cs (by omega)
          rw [htw] at hpre
          exact Bool.noConfusion hpre)]
        rw [ih cs h2]
      · rw [if_neg hc]
        rw [ih cs h2]

/-- `markerFree` as a universally quantified membership statement. -/
theorem markerFree_iff : ∀ l : List Char,
    markerFree l = true ↔ ∀ c ∈ l, isMarker c = false := by
  intro l
  induction l with
  | nil => simp [markerFree]
  | cons c cs ih =>
    show (!isMarker c && markerFree cs) = true ↔ _
    rw [Bool.and_eq_true, Bool.not_eq_true', ih]
    constructor
    · rintro ⟨h1, h2⟩ d hd
      rcases List.mem_cons.mp hd with rfl | hd
      · exact h1
      · exact h2 d hd
    · intro h
      exact ⟨h c (List.mem_cons_self c cs), fun d hd => h d (List.mem_cons_of_mem _ hd)⟩

/-- Every output character of the newline-merging pass is an input
character or a newline. -/
theorem mergePass_mem : ∀ (fuel : Nat) (l : List Char) (c : Char),
    c ∈ mergePass fuel l → c ∈ l ∨ c = '\n' := by
  intro fuel
  induction fuel with
  | zero => intro l c h; exact Or.inl h
  | succ n ih =>
    intro l c h
    match l with
    | [] => exact Or.inl h
    | d :: ds =>
      unfold mergePass at h
      by_cases hd : d = '\n'
      · rw [if_pos hd] at h
        by_cases h3 : 3 ≤ (((d :: ds).takeWhile (· = '\n')).length)
        · rw [if_pos h3] at h
          rcases List.mem_cons.mp h with rfl | h
          · exact Or.inr rfl
          rcases List.mem_cons.mp h with rfl | h
          · exact Or.inr rfl
          rcases ih _ c h with hmem | hnl
          · exact Or.inl (List.mem_of_mem_drop hmem)
          · exact Or.inr hnl
        · rw [if_neg h3] at h
          rcases List.mem_cons.mp h with rfl | h
          · exact Or.inl (List.mem_cons_self _ _)
          rcases ih _ c h with hmem | hnl
          · exact Or.inl (List.mem_cons_of_mem _ hmem)
          · exact Or.inr hnl
      · rw [if_neg hd] at h
        rcases List.mem_cons.mp h with rfl | h
        · exact Or.inl (List.mem_cons_self _ _)
        rcases ih _ c h with hmem | hnl
        · exact Or.inl (List.mem_cons_of_mem _ hmem)
        · exact Or.inr hnl

/-- The newline-merging pass preserves marker-freeness. -/
theorem mergePass_markerFree (fuel : Nat) (l : List Char) (h : markerFree l = true) :
    markerFree (mergePass fuel l) = true := by
  rw [markerFree_iff] at h ⊢
  intro c hc
  rcases mergePass_mem fuel l c hc with hm | rfl
  · exact h c hm
  · decide

/-- Characters surviving the leading-whitespace drop come from the
input. -/
theorem mem_dropWs : ∀ (l : List Char) (c : Char), c ∈ JsStr.dropWs l → c ∈ l := by
  intro l
  induction l with
  | nil => intro c h; exact h
  | cons a as ih =>
    intro c h
    unfold JsStr.dropWs at h
    by_cases ha : JsStr.isWs a = true
    · rw [if_pos ha] at h
      exact List.mem_cons_of_mem _ (ih c h)
    · rw [if_neg ha] at h
      exact h

/-- Characters surviving `trim` come from the input. -/
theorem mem_trimChars (l : List Char) (c : Char) (h : c ∈ JsStr.trimChars l) : c ∈ l := by
  unfold JsStr.trimChars at h
  have h1 := mem_dropWs _ _ h
  rw [List.mem_reverse] at h1
  have h2 := mem_dropWs _ _ h1
  rw [List.mem_reverse] at h2
  exact h2

/-- `trim` preserves marker-freeness. -/
theorem trimChars_markerFree (l : List Char) (h : markerFree l = true) :
    markerFree (JsStr.trimChars l) = true := by
  rw [markerFree_iff] at h ⊢
  intro c hc
  exact h c (mem_trimChars l c hc)

end StripMd

namespace StripMd

/-- The boolean prefix test agrees with `List.IsPrefix`. -/
theorem isPrefixB_iff : ∀ (p l : List Char), JsStr.isPrefixB p l = true ↔ p <+: l := by
  intro p
  induction p with
  | nil => intro l; simp [JsStr.isPrefixB, List.nil_prefix]
  | cons a as ih =>
    intro l
    match l with
    | [] =>
      show JsStr.isPrefixB (a :: as) [] = true ↔ _
      constructor
      · intro h; exact Bool.noConfusion h
      · intro h
        exact absurd (List.prefix_nil.mp h) (List.cons_ne_nil a as)
    | c :: cs =>
      show ((a = c : Bool) && JsStr.isPrefixB as cs) = true ↔ _
      rw [Bool.and_eq_true, ih, List.cons_prefix_cons]
      simp

/-- The boolean substring test agrees with `List.IsInfix`. -/
theorem containsB_iff : ∀ (l p : List Char), JsStr.containsB p l = true ↔ p <:+: l := by
  intro l
  induction l with
  | nil =>
    intro p
    show JsStr.isPrefixB p [] = true ↔ _
    rw [isPrefixB_iff]
    constructor
    · intro h; exact h.isInfix
    · intro h
      rw [List.infix_nil.mp h]
  | cons c cs ih =>
    intro p
    show (JsStr.isPrefixB p (c :: cs) || JsStr.containsB p cs) = true ↔ _
    rw [Bool.or_eq_true, isPrefixB_iff, ih, List.infix_cons_iff]

/-- Dropping leading whitespace yields a suffix. -/
theorem dropWs_suffix : ∀ l : List Char, JsStr.dropWs l <:+ l := by
  intro l
  induction l with
  | nil => exact List.suffix_refl []
  | cons a as ih =>
    unfold JsStr.dropWs
    by_cases ha : JsStr.isWs a = true
    · rw [if_pos ha]
      exact ih.trans (List.suffix_cons a as)
    · rw [if_neg ha]

/-- `trim` yields an infix of its input. -/
theorem trimChars_within (l : List Char) : JsStr.trimChars l <:+: l := by
  show JsStr.dropWs ((JsStr.dropWs l.reverse).reverse) <:+: l
  have h1 : JsStr.dropWs l.reverse <:+ l.reverse := dropWs_suffix _
  have h2 : (JsStr.dropWs l.reverse).reverse <+: l := by
    have h2a := List.reverse_prefix.mpr h1
    rwa [List.reverse_reverse] at h2a
  have h3 : JsStr.dropWs ((JsStr.dropWs l.reverse).reverse) <:+
      (JsStr.dropWs l.reverse).reverse := dropWs_suffix _
  exact h3.isInfix.trans h2.isInfix

/-- `trim` preserves the absence of triple newlines. -/
theorem hasTriple_trimChars (l : List Char) (h : hasTriple l = false) :
    hasTriple (JsStr.trimChars l) = false := by
  cases ht : hasTriple (JsStr.trimChars l) with
  | false => rfl
  | true =>
    have h1 : ['\n', '\n', '\n'] <:+: JsStr.trimChars l := (containsB_iff _ _).mp ht
    have h2 : ['\n', '\n', '\n'] <:+: l := h1.trans (trimChars_within l)
    have h3 : hasTriple l = true := (containsB_iff _ _).mpr h2
    rw [h3] at h
    exact h

/-- The head surviving the leading-whitespace drop is not whitespace. -/
theorem dropWs_head : ∀ (l : List Char) (c : Char),
    (JsStr.dropWs l).head? = some c → JsStr.isWs c = false := by
  intro l
  induction l with
  | nil => intro c h; exact Option.noConfusion h
  | cons a as ih =>
    intro c h
    unfold JsStr.dropWs at h
    by_cases ha : JsStr.isWs a = true
    · rw [if_pos ha] at h
      exact ih c h
    · rw [if_neg ha] at h
      injection h with h
      rw [← h]
      cases hb : JsStr.isWs a with
      | false => rfl
      | true => exact absurd hb ha

/-- The leading-whitespace drop is the identity when the head is not
whitespace. -/
theorem dropWs_id : ∀ l : List Char,
    (∀ c, l.head? = some c → JsStr.isWs c = false) → JsStr.dropWs l = l := by
  intro l h
  match l with
  | [] => rfl
  | a :: as =>
    unfold JsStr.dropWs
    rw [if_neg (by rw [h a rfl]; exact Bool.noConfusion)]

/-- `trim` is idempotent. -/
theorem trimChars_idem (l : List Char) :
    JsStr.trimChars (JsStr.trimChars l) = JsStr.trimChars l := by
  set C := (JsStr.dropWs l.reverse).reverse with hC
  have hCrev : C.reverse = JsStr.dropWs l.reverse := by rw [hC, List.reverse_reverse]
  have hpre : (JsStr.dropWs C).reverse <+: C.reverse :=
    List.reverse_prefix.mpr (dropWs_suffix C)
  have hstep1 : JsStr.dropWs ((JsStr.dropWs C).reverse) = (JsStr.dropWs C).reverse := by
    apply dropWs_id
    intro c hc
    obtain ⟨t, ht⟩ := hpre
    have hhead : C.reverse.head? = some c := by
      rw [← ht]
      cases hXv : (JsStr.dropWs C).reverse with
      | nil => rw [hXv] at hc; exact Option.noConfusion hc
      | cons x xs =>
        rw [hXv] at hc
        rw [List.cons_append, List.head?_cons]
        rw [List.head?_cons] at hc
        exact hc
    rw [hCrev] at hhead
    exact dropWs_head _ _ hhead
  show JsStr.trimChars (JsStr.dropWs C) = JsStr.dropWs C
  show JsStr.dropWs ((JsStr.dropWs (JsStr.dropWs C).reverse).reverse) = JsStr.dropWs C
  rw [hstep1, List.reverse_reverse]
  apply dropWs_id
  intro c hc
  exact dropWs_head C c hc

end StripMd

namespace StripMd

/-- On marker-free input the thirteen passes reduce to the newline merge
followed by the final trim. -/
theorem stripMarkdown_plain (s : String) (h : markerFree s.data = true) :
    stripMarkdown s = String.mk (JsStr.trimChars (mergePass s.data.length s.data)) := by
  simp only [stripMarkdown]
  rw [codeBlockPass_id _ _ h]
  rw [headingPass_id _ _ _ h]
  rw [pairPass2_id '*' (by decide) _ _ h]
  rw [pairPass1_id '*' (by decide) _ _ h]
  rw [pairPass2_id '_' (by decide) _ _ h]
  rw [underscorePass_id _ _ _ h]
  rw [listPass_id _ _ _ h]
  rw [orderedPass_id _ _ _ h]
  rw [inlineCodePass_id _ _ h]
  rw [pairPass2_id '~' (by decide) _ _ h]
  rw [linkPass_id _ _ h]
  rw [imagePass_id _ _ h]
  rw [tablePass_id _ _ h]
  rw [quotePass_id _ _ _ h]
  rw [hrPass_id _ _ _ h]

end StripMd

/-- C9 (amended): `stripMarkdown` is idempotent on marker-free input —
strings containing none of the pass-trigger characters
(`#`, `*`, `_`, `~`, `[`, `|`, `>`, `-`, backtick, digits).  On such
input only the newline-merging pass and the final trim act, and both are
idempotent in combination. -/
theorem c9_strip_markdown_idempotent_plain (s : String)
    (h : StripMd.markerFree s.data = true) :
    StripMd.stripMarkdown (StripMd.stripMarkdown s) = StripMd.stripMarkdown s := by
  have h1 := StripMd.stripMarkdown_plain s h
  have hmf : StripMd.markerFree
      (JsStr.trimChars (StripMd.mergePass s.data.length s.data)) = true :=
    StripMd.trimChars_markerFree _ (StripMd.mergePass_markerFree _ _ h)
  have hnt : StripMd.hasTriple
      (JsStr.trimChars (StripMd.mergePass s.data.length s.data)) = false :=
    StripMd.hasTriple_trimChars _ (StripMd.mergePass_noTriple _ _ (le_refl _))
  rw [h1]
  rw [StripMd.stripMarkdown_plain
    (String.mk (JsStr.trimChars (StripMd.mergePass s.data.length s.data))) hmf]
  rw [show (String.mk (JsStr.trimChars (StripMd.mergePass s.data.length s.data))).data
      = JsStr.trimChars (StripMd.mergePass s.data.length s.data) from rfl]
  rw [StripMd.mergePass_id_of_noTriple _ _ hnt]
  rw [StripMd.trimChars_idem]

/-- Witness for the amended C9 theorem at a concrete marker-free input. -/
theorem c9_strip_markdown_idempotent_plain_witness :
    StripMd.markerFree "hi there\n\n\n\nok".data = true ∧
      StripMd.stripMarkdown (StripMd.stripMarkdown "hi there\n\n\n\nok")
        = StripMd.stripMarkdown "hi there\n\n\n\nok" :=
  ⟨by decide, c9_strip_markdown_idempotent_plain _ (by decide)⟩

namespace WecomCrypto

/-- Decoding inverts the base64 alphabet on sextets. -/
theorem b64_inv : ∀ n, n < 64 → b64CharVal (b64Char n) = some n := by decide

/-- The padding character decodes to nothing. -/
theorem b64CharVal_eq_char : b64CharVal '=' = none := by decide

/-- Base64 encoding followed by decoding restores any byte list. -/
theorem b64_roundtrip_aux : ∀ (n : Nat) (l : List Nat), l.length ≤ n →
    (∀ x ∈ l, x < 256) →
    sextetsToBytes ((b64encodeChars l).filterMap b64CharVal) = l := by
  intro n
  induction n with
  | zero =>
    intro l hl _
    have h0 : l = [] := List.length_eq_zero.mp (Nat.le_zero.mp hl)
    subst h0
    rfl
  | succ m ih =>
    intro l hl hb
    match l with
    | [] => rfl
    | [b0] =>
      have hb0 : b0 < 256 := hb b0 (List.mem_cons_self _ _)
      have e1 : b64CharVal (b64Char (b0 / 4)) = some (b0 / 4) := b64_inv _ (by omega)
      have e2 : b64CharVal (b64Char (b0 % 4 * 16)) = some (b0 % 4 * 16) :=
        b64_inv _ (by omega)
      show sextetsToBytes (List.filterMap b64CharVal
        [b64Char (b0 / 4), b64Char (b0 % 4 * 16), '=', '=']) = [b0]
      simp only [List.filterMap_cons, e1, e2, b64CharVal_eq_char, List.filterMap_nil]
      show [b0 / 4 * 4 + b0 % 4 * 16 / 16] = [b0]
      have : b0 / 4 * 4 + b0 % 4 * 16 / 16 = b0 := by omega
      rw [this]
    | [b0, b1] =>
      have hb0 : b0 < 256 := hb b0 (List.mem_cons_self _ _)
      have hb1 : b1 < 256 := hb b1 (List.mem_cons_of_mem _ (List.mem_cons_self _ _))
      have e1 : b64CharVal (b64Char (b0 / 4)) = some (b0 / 4) := b64_inv _ (by omega)
      have e2 : b64CharVal (b64Char (b0 % 4 * 16 + b1 / 16)) = some (b0 % 4 * 16 + b1 / 16) :=
        b64_inv _ (by omega)
      have e3 : b64CharVal (b64Char (b1 % 16 * 4)) = some (b1 % 16 * 4) :=
        b64_inv _ (by omega)
      show sextetsToBytes (List.filterMap b64CharVal
        [b64Char (b0 / 4), b64Char (b0 % 4 * 16 + b1 / 16), b64Char (b1 % 16 * 4), '=']) =
        [b0, b1]
      simp only [List.filterMap_cons, e1, e2, e3, b64CharVal_eq_char, List.filterMap_nil]
      show [b0 / 4 * 4 + (b0 % 4 * 16 + b1 / 16) / 16,
        (b0 % 4 * 16 + b1 / 16) % 16 * 16 + b1 % 16 * 4 / 4] = [b0, b1]
      have h1 : b0 / 4 * 4 + (b0 % 4 * 16 + b1 / 16) / 16 = b0 := by omega
      have h2 : (b0 % 4 * 16 + b1 / 16) % 16 * 16 + b1 % 16 * 4 / 4 = b1 := by omega
      rw [h1, h2]
    | b0 :: b1 :: b2 :: rest =>
      have hb0 : b0 < 256 := hb b0 (by simp)
      have hb1 : b1 < 256 := hb b1 (by simp)
      have hb2 : b2 < 256 := hb b2 (by simp)
      have e1 : b64CharVal (b64Char (b0 / 4)) = some (b0 / 4) := b64_inv _ (by omega)
      have e2 : b64CharVal (b64Char (b0 % 4 * 16 + b1 / 16)) = some (b0 % 4 * 16 + b1 / 16) :=
        b64_inv _ (by omega)
      have e3 : b64CharVal (b64Char (b1 % 16 * 4 + b2 / 64)) = some (b1 % 16 * 4 + b2 / 64) :=
        b64_inv _ (by omega)
      have e4 : b64CharVal (b64Char (b2 % 64)) = some (b2 % 64) := b64_inv _ (by omega)
      have hrest : rest.length ≤ m := by
        simp only [List.length_cons] at hl
        omega
      have hrb : ∀ x ∈ rest, x < 256 := fun x hx => hb x (by simp [hx])
      show sextetsToBytes (List.filterMap b64CharVal
        (b64Char (b0 / 4) :: b64Char (b0 % 4 * 16 + b1 / 16) ::
          b64Char (b1 % 16 * 4 + b2 / 64) :: b64Char (b2 % 64) :: b64encodeChars rest)) =
        b0 :: b1 :: b2 :: rest
      simp only [List.filterMap_cons, e1, e2, e3, e4]
      show (b0 / 4 * 4 + (b0 % 4 * 16 + b1 / 16) / 16) ::
        ((b0 % 4 * 16 + b1 / 16) % 16 * 16 + (b1 % 16 * 4 + b2 / 64) / 4) ::
        ((b1 % 16 * 4 + b2 / 64) % 4 * 64 + b2 % 64) ::
        sextetsToBytes (List.filterMap b64CharVal (b64encodeChars rest)) =
        b0 :: b1 :: b2 :: rest
      rw [ih rest hrest hrb]
      have h1 : b0 / 4 * 4 + (b0 % 4 * 16 + b1 / 16) / 16 = b0 := by omega
      have h2 : (b0 % 4 * 16 + b1 / 16) % 16 * 16 + (b1 % 16 * 4 + b2 / 64) / 4 = b1 := by
        omega
      have h3 : (b1 % 16 * 4 + b2 / 64) % 4 * 64 + b2 % 64 = b2 := by omega
      rw [h1, h2, h3]

/-- `Buffer.from(buf.toString("base64"), "base64")` is the identity on
byte lists. -/
theorem b64_roundtrip (l : List Nat) (h : ∀ x ∈ l, x < 256) :
    b64decode (b64encode l) = l :=
  b64_roundtrip_aux l.length l (le_refl _) h

end WecomCrypto

namespace WecomCrypto

/-- Unpadding inverts padding for the WeCom block size. -/
theorem pkcs7_roundtrip (buf : List Nat) :
    pkcs7Unpad (pkcs7Pad buf WECOM_PKCS7_BLOCK_SIZE) WECOM_PKCS7_BLOCK_SIZE = some buf := by
  unfold pkcs7Pad pkcs7Unpad WECOM_PKCS7_BLOCK_SIZE
  have hpad1 : 1 ≤ (if buf.length % 32 = 0 then 32 else 32 - buf.length % 32) := by
    by_cases h : buf.length % 32 = 0
    · rw [if_pos h]; omega
    · rw [if_neg h]; omega
  have hpad32 : (if buf.length % 32 = 0 then 32 else 32 - buf.length % 32) ≤ 32 := by
    by_cases h : buf.length % 32 = 0
    · rw [if_pos h]
    · rw [if_neg h]; omega
  set pad := (if buf.length % 32 = 0 then 32 else 32 - buf.length % 32) with hpd
  have hlast : (buf ++ List.replicate pad pad).getLast? = some pad := by
    rw [List.getLast?_append_of_ne_nil _ (by
      intro hnil
      rw [← List.length_eq_zero, List.length_replicate] at hnil
      omega)]
    rw [show List.replicate pad pad = List.replicate (pad - 1) pad ++ [pad] from by
      rw [← List.replicate_succ']
      congr 1
      omega]
    exact List.getLast?_concat _
  simp only [hlast]
  have hlen : (buf ++ List.replicate pad pad).length = buf.length + pad := by
    rw [List.length_append, List.length_replicate]
  rw [if_neg (by
    simp only [hlen, Bool.or_eq_true, decide_eq_true_eq]
    omega)]
  have hdrop : (buf ++ List.replicate pad pad).drop
      ((buf ++ List.replicate pad pad).length - pad) = List.replicate pad pad := by
    rw [hlen, show buf.length + pad - pad = buf.length from by omega]
    exact List.drop_left _ _
  have htake : (buf ++ List.replicate pad pad).take
      ((buf ++ List.replicate pad pad).length - pad) = buf := by
    rw [hlen, show buf.length + pad - pad = buf.length from by omega]
    exact List.take_left _ _
  rw [hdrop, htake]
  rw [if_pos (by
    rw [List.all_eq_true]
    intro x hx
    rw [List.eq_of_mem_replicate hx]
    simp)]

/-- The padded buffer has whole-block length. -/
theorem pkcs7Pad_length_mod (buf : List Nat) :
    (pkcs7Pad buf WECOM_PKCS7_BLOCK_SIZE).length % 32 = 0 := by
  unfold pkcs7Pad WECOM_PKCS7_BLOCK_SIZE
  rw [List.length_append, List.length_replicate]
  by_cases h : buf.length % 32 = 0
  · rw [if_pos h]; omega
  · rw [if_neg h]; omega

/-- Padding bytes stay below 256 when the payload does. -/
theorem pkcs7Pad_bound (buf : List Nat) (h : ∀ x ∈ buf, x < 256) :
    ∀ x ∈ pkcs7Pad buf WECOM_PKCS7_BLOCK_SIZE, x < 256 := by
  intro x hx
  unfold pkcs7Pad WECOM_PKCS7_BLOCK_SIZE at hx
  rcases List.mem_append.mp hx with hx | hx
  · exact h x hx
  · rw [List.eq_of_mem_replicate hx]
    by_cases hm : buf.length % 32 = 0
    · rw [if_pos hm]; omega
    · rw [if_neg hm]; omega

/-- Bytewise xor of two equally long byte lists cancels on the right. -/
theorem xorBytes_cancel : ∀ (a b : List Nat), a.length = b.length →
    xorBytes (xorBytes a b) b = a := by
  intro a
  induction a with
  | nil => intro b _; rfl
  | cons x xs ih =>
    intro b hb
    match b with
    | [] => exact absurd hb (by simp)
    | y :: ys =>
      show (x ^^^ y ^^^ y) :: xorBytes (xorBytes xs ys) ys = x :: xs
      rw [Nat.xor_cancel_right]
      rw [ih ys (by simpa using hb)]

/-- Bytewise xor keeps byte values below 256. -/
theorem xorBytes_bound : ∀ (a b : List Nat), (∀ x ∈ a, x < 256) → (∀ x ∈ b, x < 256) →
    ∀ x ∈ xorBytes a b, x < 256 := by
  intro a
  induction a with
  | nil => intro b _ _ x hx; exact absurd hx (by simp [xorBytes])
  | cons p ps ih =>
    intro b ha hb x hx
    match b with
    | [] => exact absurd hx (by simp [xorBytes])
    | q :: qs =>
      rcases List.mem_cons.mp hx with rfl | hx
      · have hp : p < 256 := ha p (by simp)
        have hq : q < 256 := hb q (by simp)
        calc p ^^^ q < 2 ^ 8 := Nat.xor_lt_two_pow hp hq
          _ = 256 := by norm_num
      · exact ih qs (fun y hy => ha y (by simp [hy])) (fun y hy => hb y (by simp [hy])) x hx

/-- `xorBytes` length is the shorter operand length. -/
theorem xorBytes_length (a b : List Nat) : (xorBytes a b).length = min a.length b.length :=
  List.length_zipWith _ _ _

end WecomCrypto

namespace WecomCrypto

/-- One CBC encryption step. -/
theorem cbcEncrypt_cons (E : List Nat → List Nat) (fuel : Nat) (prev : List Nat)
    (c : Nat) (cs : List Nat) :
    cbcEncrypt E (fuel + 1) prev (c :: cs) =
      E (xorBytes ((c :: cs).take 16) prev) ++
        cbcEncrypt E fuel (E (xorBytes ((c :: cs).take 16) prev)) ((c :: cs).drop 16) := rfl

/-- One CBC decryption step. -/
theorem cbcDecrypt_cons (D : List Nat → List Nat) (fuel : Nat) (prev : List Nat)
    (c : Nat) (cs : List Nat) :
    cbcDecrypt D (fuel + 1) prev (c :: cs) =
      xorBytes (D ((c :: cs).take 16)) prev ++
        cbcDecrypt D fuel ((c :: cs).take 16) ((c :: cs).drop 16) := rfl

/-- CBC decryption of the empty ciphertext. -/
theorem cbcDecrypt_nil (D : List Nat → List Nat) (fuel : Nat) (prev : List Nat) :
    cbcDecrypt D fuel prev [] = [] := by
  cases fuel <;> rfl

/-- One CBC decryption step, with the leading 16-byte block given as an
append. -/
theorem cbcDecrypt_append16 (D : List Nat → List Nat) (m : Nat)
    (prev out rest : List Nat) (hlen : out.length = 16) :
    cbcDecrypt D (m + 1) prev (out ++ rest) =
      xorBytes (D out) prev ++ cbcDecrypt D m out rest := by
  match out, hlen with
  | o :: otail, hlen =>
    have h1 : ((o :: otail) ++ rest).take 16 = o :: otail := by
      rw [← hlen]
      exact List.take_left _ _
    have h2 : ((o :: otail) ++ rest).drop 16 = rest := by
      rw [← hlen]
      exact List.drop_left _ _
    rw [List.cons_append] at h1 h2
    rw [List.cons_append, cbcDecrypt_cons, h1, h2]

/-- CBC encryption preserves the total length on whole-block bounded
input. -/
theorem cbcEncrypt_length (E : List Nat → List Nat)
    (hElen : ∀ b, b.length = 16 → (∀ x ∈ b, x < 256) → (E b).length = 16)
    (hEbound : ∀ b, b.length = 16 → (∀ x ∈ b, x < 256) → ∀ x ∈ E b, x < 256) :
    ∀ (fuel : Nat) (prev data : List Nat),
      data.length % 16 = 0 → data.length ≤ fuel →
      prev.length = 16 → (∀ x ∈ prev, x < 256) → (∀ x ∈ data, x < 256) →
      (cbcEncrypt E fuel prev data).length = data.length := by
  intro fuel
  induction fuel with
  | zero =>
    intro prev data _ hle _ _ _
    have h0 : data = [] := List.length_eq_zero.mp (Nat.le_zero.mp hle)
    subst h0
    rfl
  | succ n ih =>
    intro prev data hmod hle hprev hprevB hdataB
    match data with
    | [] => rfl
    | c :: cs =>
      have h16 : 16 ≤ (c :: cs).length := by
        simp only [List.length_cons] at hmod ⊢
        omega
      have hblk_len : ((c :: cs).take 16).length = 16 := by
        rw [List.length_take]
        omega
      have hblk_bound : ∀ x ∈ (c :: cs).take 16, x < 256 :=
        fun x hx => hdataB x (List.mem_of_mem_take hx)
      have hB_len : (xorBytes ((c :: cs).take 16) prev).length = 16 := by
        rw [xorBytes_length, hblk_len, hprev]
        rfl
      have hB_bound := xorBytes_bound _ _ hblk_bound hprevB
      have hout_len := hElen _ hB_len hB_bound
      have hout_bound := hEbound _ hB_len hB_bound
      rw [cbcEncrypt_cons, List.length_append, hout_len]
      rw [ih _ _ (by rw [List.length_drop]; omega) (by rw [List.length_drop]; omega)
        hout_len hout_bound (fun x hx => hdataB x (List.mem_of_mem_drop hx))]
      rw [List.length_drop]
      omega

/-- CBC ciphertext bytes stay below 256. -/
theorem cbcEncrypt_bound (E : List Nat → List Nat)
    (hElen : ∀ b, b.length = 16 → (∀ x ∈ b, x < 256) → (E b).length = 16)
    (hEbound : ∀ b, b.length = 16 → (∀ x ∈ b, x < 256) → ∀ x ∈ E b, x < 256) :
    ∀ (fuel : Nat) (prev data : List Nat),
      data.length % 16 = 0 → data.length ≤ fuel →
      prev.length = 16 → (∀ x ∈ prev, x < 256) → (∀ x ∈ data, x < 256) →
      ∀ x ∈ cbcEncrypt E fuel prev data, x < 256 := by
  intro fuel
  induction fuel with
  | zero =>
    intro prev data _ _ _ _ _ x hx
    exact absurd hx (by simp [cbcEncrypt])
  | succ n ih =>
    intro prev data hmod hle hprev hprevB hdataB x hx
    match data with
    | [] => exact absurd hx (by simp [cbcEncrypt])
    | c :: cs =>
      have h16 : 16 ≤ (c :: cs).length := by
        simp only [List.length_cons] at hmod ⊢
        omega
      have hblk_len : ((c :: cs).take 16).length = 16 := by
        rw [List.length_take]
        omega
      have hblk_bound : ∀ y ∈ (c :: cs).take 16, y < 256 :=
        fun y hy => hdataB y (List.mem_of_mem_take hy)
      have hB_len : (xorBytes ((c :: cs).take 16) prev).length = 16 := by
        rw [xorBytes_length, hblk_len, hprev]
        rfl
      have hB_bound := xorBytes_bound _ _ hblk_bound hprevB
      have hout_len := hElen _ hB_len hB_bound
      have hout_bound := hEbound _ hB_len hB_bound
      rw [cbcEncrypt_cons] at hx
      rcases List.mem_append.mp hx with hx | hx
      · exact hout_bound x hx
      · exact ih _ _ (by rw [List.length_drop]; omega) (by rw [List.length_drop]; omega)
          hout_len hout_bound (fun y hy => hdataB y (List.mem_of_mem_drop hy)) x hx

/-- CBC decryption inverts CBC encryption on whole-block bounded input. -/
theorem cbc_roundtrip (E D : List Nat → List Nat)
    (hED : ∀ b, b.length = 16 → (∀ x ∈ b, x < 256) → D (E b) = b)
    (hElen : ∀ b, b.length = 16 → (∀ x ∈ b, x < 256) → (E b).length = 16)
    (hEbound : ∀ b, b.length = 16 → (∀ x ∈ b, x < 256) → ∀ x ∈ E b, x < 256) :
    ∀ (fuel₁ fuel₂ : Nat) (prev data : List Nat),
      data.length % 16 = 0 → data.length ≤ fuel₁ → data.length ≤ fuel₂ →
      prev.length = 16 → (∀ x ∈ prev, x < 256) → (∀ x ∈ data, x < 256) →
      cbcDecrypt D fuel₂ prev (cbcEncrypt E fuel₁ prev data) = data := by
  intro fuel₁
  induction fuel₁ with
  | zero =>
    intro fuel₂ prev data _ hle _ _ _ _
    have h0 : data = [] := List.length_eq_zero.mp (Nat.le_zero.mp hle)
    subst h0
    exact cbcDecrypt_nil _ _ _
  | succ n ih =>
    intro fuel₂ prev data hmod hle₁ hle₂ hprev hprevB hdataB
    match data with
    | [] => exact cbcDecrypt_nil _ _ _
    | c :: cs =>
      have h16 : 16 ≤ (c :: cs).length := by
        simp only [List.length_cons] at hmod ⊢
        omega
      have hblk_len : ((c :: cs).take 16).length = 16 := by
        rw [List.length_take]
        omega
      have hblk_bound : ∀ y ∈ (c :: cs).take 16, y < 256 :=
        fun y hy => hdataB y (List.mem_of_mem_take hy)
      have hB_len : (xorBytes ((c :: cs).take 16) prev).length = 16 := by
        rw [xorBytes_length, hblk_len, hprev]
        rfl
      have hB_bound := xorBytes_bound _ _ hblk_bound hprevB
      have hout_len := hElen _ hB_len hB_bound
      have hout_bound := hEbound _ hB_len hB_bound
      obtain ⟨m, rfl⟩ : ∃ m, fuel₂ = m + 1 := ⟨fuel₂ - 1, by omega⟩
      rw [cbcEncrypt_cons, cbcDecrypt_append16 _ _ _ _ _ hout_len]
      rw [hED _ hB_len hB_bound]
      rw [xorBytes_cancel _ _ (by rw [hblk_len, hprev])]
      rw [ih _ _ _ (by rw [List.length_drop]; omega) (by rw [List.length_drop]; omega)
        (by rw [List.length_drop]; omega) hout_len hout_bound
        (fun y hy => hdataB y (List.mem_of_mem_drop hy))]
      exact List.take_append_drop 16 (c :: cs)

end WecomCrypto


namespace WecomCrypto

/-- Decoded base64 sextets are below 64. -/
theorem b64CharVal_lt (c : Char) (v : Nat) (h : b64CharVal c = some v) : v < 64 := by
  simp only [b64CharVal] at h
  split at h
  · rename_i h1
    rw [Bool.and_eq_true, decide_eq_true_eq, decide_eq_true_eq] at h1
    injection h with h
    omega
  · split at h
    · rename_i h1
      rw [Bool.and_eq_true, decide_eq_true_eq, decide_eq_true_eq] at h1
      injection h with h
      omega
    · split at h
      · rename_i h1
        rw [Bool.and_eq_true, decide_eq_true_eq, decide_eq_true_eq] at h1
        injection h with h
        omega
      · split at h
        · injection h with h
          omega
        · split at h
          · injection h with h
            omega
          · exact Option.noConfusion h

/-- Bytes reassembled from sextets are below 256. -/
theorem sextetsToBytes_bound : ∀ (n : Nat) (l : List Nat), l.length ≤ n →
    (∀ x ∈ l, x < 64) → ∀ y ∈ sextetsToBytes l, y < 256 := by
  intro n
  induction n with
  | zero =>
    intro l hl _ y hy
    have h0 : l = [] := List.length_eq_zero.mp (Nat.le_zero.mp hl)
    subst h0
    exact absurd hy (by simp [sextetsToBytes])
  | succ m ih =>
    intro l hl hb y hy
    match l, hl, hb, hy with
    | [], _, _, hy => exact absurd hy (by simp [sextetsToBytes])
    | [a], _, _, hy => exact absurd hy (by simp [sextetsToBytes])
    | [a, b], _, hb, hy =>
      have ha : a < 64 := hb a (by simp)
      have hbb : b < 64 := hb b (by simp)
      rcases List.mem_cons.mp hy with rfl | hy
      · omega
      · exact absurd hy (by simp)
    | [a, b, c], _, hb, hy =>
      have ha : a < 64 := hb a (by simp)
      have hbb : b < 64 := hb b (by simp)
      have hc : c < 64 := hb c (by simp)
      rcases List.mem_cons.mp hy with rfl | hy
      · omega
      rcases List.mem_cons.mp hy with rfl | hy
      · omega
      · exact absurd hy (by simp)
    | a :: b :: c :: d :: rest, hl, hb, hy =>
      have ha : a < 64 := hb a (by simp)
      have hbb : b < 64 := hb b (by simp)
      have hc : c < 64 := hb c (by simp)
      have hd : d < 64 := hb d (by simp)
      have hy' : y ∈ (a * 4 + b / 16) :: ((b % 16) * 16 + c / 4) :: ((c % 4) * 64 + d) ::
          sextetsToBytes rest := hy
      rcases List.mem_cons.mp hy' with rfl | hy'
      · omega
      rcases List.mem_cons.mp hy' with rfl | hy'
      · omega
      rcases List.mem_cons.mp hy' with rfl | hy'
      · omega
      · exact ih rest (by simp only [List.length_cons] at hl; omega)
          (fun x hx => hb x (by simp [hx])) y hy'

/-- Base64 decoding produces bytes below 256. -/
theorem b64decode_bound (s : String) : ∀ y ∈ b64decode s, y < 256 := by
  intro y hy
  unfold b64decode at hy
  refine sextetsToBytes_bound (s.data.filterMap b64CharVal).length _ (le_refl _) ?_ y hy
  intro x hx
  obtain ⟨c, _, hc⟩ := List.mem_filterMap.mp hx
  exact b64CharVal_lt c x hc

/-- A successfully decoded AES key has 32 bytes, all below 256. -/
theorem decodeEncodingAESKey_spec (s : String) (key : List Nat)
    (h : decodeEncodingAESKey s = some key) :
    key.length = 32 ∧ ∀ x ∈ key, x < 256 := by
  simp only [decodeEncodingAESKey] at h
  split at h
  · exact Option.noConfusion h
  · split at h
    · split at h
      · rename_i hlen
        injection h with h
        subst h
        exact ⟨hlen, b64decode_bound _⟩
      · exact Option.noConfusion h
    · split at h
      · rename_i hlen
        injection h with h
        subst h
        exact ⟨hlen, b64decode_bound _⟩
      · exact Option.noConfusion h

/-- `readUInt32BE` inverts `writeUInt32BE` below `2^32`. -/
theorem readU32BE_u32be (n : Nat) (h : n < 4294967296) : readU32BE (u32be n) = n := by
  show n / 16777216 % 256 * 16777216 + n / 65536 % 256 * 65536 + n / 256 % 256 * 256 + n % 256
    = n
  omega

/-- The four bytes of `writeUInt32BE` are below 256. -/
theorem u32be_bound (n : Nat) : ∀ x ∈ u32be n, x < 256 := by
  intro x hx
  unfold u32be at hx
  rcases List.mem_cons.mp hx with rfl | hx
  · omega
  rcases List.mem_cons.mp hx with rfl | hx
  · omega
  rcases List.mem_cons.mp hx with rfl | hx
  · omega
  rcases List.mem_cons.mp hx with rfl | hx
  · omega
  · exact absurd hx (by simp)

end WecomCrypto

namespace WecomCrypto

/-- `writeUInt32BE` produces four bytes. -/
theorem u32be_length (n : Nat) : (u32be n).length = 4 := rfl

end WecomCrypto

/-- C1: WeCom payload crypto round-trips.  For any block-cipher family
that is a length-preserving, byte-valued involution pair on 16-byte
blocks (as AES-256-CBC block operations are), any encodingAESKey that
decodes to a 32-byte key, any receiveId, any 16-byte random prefix, and
any plaintext of byte values < 256 and length < 2^32, encryption
succeeds and decryption of its output with the same key and receiveId
returns exactly the plaintext bytes, irrespective of the random
prefix. -/
theorem c1_wecom_crypto_roundtrip (C : List Nat → WecomCrypto.BlockCipher)
    (encodingAESKey : String) (key receiveId random16 plaintext : List Nat)
    (hkey : WecomCrypto.decodeEncodingAESKey encodingAESKey = some key)
    (hED : ∀ b, b.length = 16 → (∀ x ∈ b, x < 256) → (C key).dec ((C key).enc b) = b)
    (hElen : ∀ b, b.length = 16 → (∀ x ∈ b, x < 256) → ((C key).enc b).length = 16)
    (hEbound : ∀ b, b.length = 16 → (∀ x ∈ b, x < 256) → ∀ x ∈ (C key).enc b, x < 256)
    (hr16 : random16.length = 16)
    (hrB : ∀ x ∈ random16, x < 256)
    (hpB : ∀ x ∈ plaintext, x < 256)
    (hiB : ∀ x ∈ receiveId, x < 256)
    (hplen : plaintext.length < 4294967296) :
    ∃ ct, WecomCrypto.encryptWecomPlaintext C encodingAESKey receiveId random16 plaintext
        = some ct ∧
      WecomCrypto.decryptWecomEncrypted C encodingAESKey receiveId ct = some plaintext := by
  obtain ⟨hklen, hkB⟩ := WecomCrypto.decodeEncodingAESKey_spec _ _ hkey
  have hiv_len : (key.take 16).length = 16 := by
    rw [List.length_take, hklen]
    rfl
  have hiv_B : ∀ x ∈ key.take 16, x < 256 := fun x hx => hkB x (List.mem_of_mem_take hx)
  have hrawB : ∀ x ∈ random16 ++ WecomCrypto.u32be plaintext.length ++ plaintext ++ receiveId,
      x < 256 := by
    intro x hx
    rcases List.mem_append.mp hx with hx | hx
    · rcases List.mem_append.mp hx with hx | hx
      · rcases List.mem_append.mp hx with hx | hx
        · exact hrB x hx
        · exact WecomCrypto.u32be_bound _ x hx
      · exact hpB x hx
    · exact hiB x hx
  have hpadB := WecomCrypto.pkcs7Pad_bound _ hrawB
  have hpadMod32 := WecomCrypto.pkcs7Pad_length_mod
    (random16 ++ WecomCrypto.u32be plaintext.length ++ plaintext ++ receiveId)
  have hpadMod : (WecomCrypto.pkcs7Pad
      (random16 ++ WecomCrypto.u32be plaintext.length ++ plaintext ++ receiveId)
      WecomCrypto.WECOM_PKCS7_BLOCK_SIZE).length % 16 = 0 := by omega
  have hctlen := WecomCrypto.cbcEncrypt_length (C key).enc hElen hEbound
    (WecomCrypto.pkcs7Pad
      (random16 ++ WecomCrypto.u32be plaintext.length ++ plaintext ++ receiveId)
      WecomCrypto.WECOM_PKCS7_BLOCK_SIZE).length
    (key.take 16)
    (WecomCrypto.pkcs7Pad
      (random16 ++ WecomCrypto.u32be plaintext.length ++ plaintext ++ receiveId)
      WecomCrypto.WECOM_PKCS7_BLOCK_SIZE)
    hpadMod (le_refl _) hiv_len hiv_B hpadB
  have hctB := WecomCrypto.cbcEncrypt_bound (C key).enc hElen hEbound
    (WecomCrypto.pkcs7Pad
      (random16 ++ WecomCrypto.u32be plaintext.length ++ plaintext ++ receiveId)
      WecomCrypto.WECOM_PKCS7_BLOCK_SIZE).length
    (key.take 16)
    (WecomCrypto.pkcs7Pad
      (random16 ++ WecomCrypto.u32be plaintext.length ++ plaintext ++ receiveId)
      WecomCrypto.WECOM_PKCS7_BLOCK_SIZE)
    hpadMod (le_refl _) hiv_len hiv_B hpadB
  have henc : WecomCrypto.encryptWecomPlaintext C encodingAESKey receiveId random16 plaintext
      = some (WecomCrypto.b64encode (WecomCrypto.cbcEncrypt (C key).enc
        (WecomCrypto.pkcs7Pad
          (random16 ++ WecomCrypto.u32be plaintext.length ++ plaintext ++ receiveId)
          WecomCrypto.WECOM_PKCS7_BLOCK_SIZE).length
        (key.take 16)
        (WecomCrypto.pkcs7Pad
          (random16 ++ WecomCrypto.u32be plaintext.length ++ plaintext ++ receiveId)
          WecomCrypto.WECOM_PKCS7_BLOCK_SIZE))) := by
    simp only [WecomCrypto.encryptWecomPlaintext, hkey]
    rw [if_pos hplen]
  refine ⟨_, henc, ?_⟩
  · simp only [WecomCrypto.decryptWecomEncrypted, hkey]
    rw [WecomCrypto.b64_roundtrip _ hctB]
    rw [if_pos (show (WecomCrypto.cbcEncrypt (C key).enc
        (WecomCrypto.pkcs7Pad
          (random16 ++ WecomCrypto.u32be plaintext.length ++ plaintext ++ receiveId)
          WecomCrypto.WECOM_PKCS7_BLOCK_SIZE).length
        (key.take 16)
        (WecomCrypto.pkcs7Pad
          (random16 ++ WecomCrypto.u32be plaintext.length ++ plaintext ++ receiveId)
          WecomCrypto.WECOM_PKCS7_BLOCK_SIZE)).length % 16 = 0 from by
      rw [hctlen]
      exact hpadMod)]
    rw [hctlen]
    rw [WecomCrypto.cbc_roundtrip (C key).enc (C key).dec hED hElen hEbound _ _ _ _
      hpadMod (le_refl _) (le_refl _) hiv_len hiv_B hpadB]
    simp only [WecomCrypto.pkcs7_roundtrip]
    have hrawlen : (random16 ++ WecomCrypto.u32be plaintext.length ++ plaintext
        ++ receiveId).length = 20 + plaintext.length + receiveId.length := by
      simp only [List.length_append, hr16, WecomCrypto.u32be_length]
    rw [if_neg (show ¬ ((random16 ++ WecomCrypto.u32be plaintext.length ++ plaintext
        ++ receiveId).length < 20) from by rw [hrawlen]; omega)]
    have hF2 : ((random16 ++ WecomCrypto.u32be plaintext.length ++ plaintext
        ++ receiveId).drop 16).take 4 = WecomCrypto.u32be plaintext.length := by
      rw [show random16 ++ WecomCrypto.u32be plaintext.length ++ plaintext ++ receiveId
          = random16 ++ (WecomCrypto.u32be plaintext.length ++ (plaintext ++ receiveId))
          from by simp [List.append_assoc]]
      rw [List.drop_left' hr16]
      rw [List.take_left' (WecomCrypto.u32be_length _)]
    rw [hF2, WecomCrypto.readU32BE_u32be _ hplen]
    rw [if_neg (show ¬ ((random16 ++ WecomCrypto.u32be plaintext.length ++ plaintext
        ++ receiveId).length < 20 + plaintext.length) from by rw [hrawlen]; omega)]
    have hF3 : ((random16 ++ WecomCrypto.u32be plaintext.length ++ plaintext
        ++ receiveId).drop 20).take plaintext.length = plaintext := by
      rw [show random16 ++ WecomCrypto.u32be plaintext.length ++ plaintext ++ receiveId
          = (random16 ++ WecomCrypto.u32be plaintext.length) ++ (plaintext ++ receiveId)
          from by simp [List.append_assoc]]
      rw [List.drop_left' (show (random16 ++ WecomCrypto.u32be plaintext.length).length = 20
        from by rw [List.length_append, hr16, WecomCrypto.u32be_length])]
      exact List.take_left _ _
    rw [hF3]
    have hF4 : (random16 ++ WecomCrypto.u32be plaintext.length ++ plaintext
        ++ receiveId).drop (20 + plaintext.length) = receiveId := by
      rw [List.drop_left' (show (random16 ++ WecomCrypto.u32be plaintext.length
        ++ plaintext).length = 20 + plaintext.length from by
        rw [List.length_append, List.length_append, hr16, WecomCrypto.u32be_length])]
    by_cases hrid : receiveId = []
    · rw [if_neg (fun hne => hne hrid)]
    · rw [if_pos hrid, if_pos hF4]

/-- Witness for the C1 round-trip at the identity block cipher and a
43-character all-`A` key. -/
theorem c1_wecom_crypto_roundtrip_witness :
    ∃ ct, WecomCrypto.encryptWecomPlaintext WecomCrypto.idCipher
        "AAAAAAAAAAAAAAAAAAAAAAAAAAAAAAAAAAAAAAAAAAA" [119, 120] (List.replicate 16 7)
        [104, 105] = some ct ∧
      WecomCrypto.decryptWecomEncrypted WecomCrypto.idCipher
        "AAAAAAAAAAAAAAAAAAAAAAAAAAAAAAAAAAAAAAAAAAA" [119, 120] ct = some [104, 105] :=
  c1_wecom_crypto_roundtrip WecomCrypto.idCipher
    "AAAAAAAAAAAAAAAAAAAAAAAAAAAAAAAAAAAAAAAAAAA"
    (List.replicate 32 0) [119, 120] (List.replicate 16 7) [104, 105]
    (by decide)
    (fun b _ _ => rfl)
    (fun b hb _ => hb)
    (fun b _ hbB => hbB)
    (by decide)
    (by decide)
    (by decide)
    (by decide)
    (by decide)
